import Mathlib

/-!
# Verification of the boltdb free-page manager (`freelist.go`)

A shallow embedding of the free-page manager of `openkvlab/boltdb`.
Page ids (`Pgid` in the source) and transaction ids (`Txid`) are 64-bit
unsigned integers there; the algorithms below never rely on
wrap-around, so both are embedded as `Nat`.  Go maps are embedded as association
lists, Go sets as lists with membership semantics, and fatal panics as
`Option` results (`none` = panic).

The file `freelist.go` stores the hashmap ("span index") variant of the
allocator behind function-valued fields (`hashmapAllocate`,
`hashmapFreeCount`, `hashmapMergeSpans`, `hashmapGetFreePageIDs`,
`hashmapReadIDs`) and uses the `common` package (`Page` accessors,
`Mergepgids`).  Those parts live outside `freelist.go`; their
definitions below are modelled from the specification and are marked
`Modelled from the spec:` in their doc comments.
-/

namespace BoltFreelist

/-- `txPending` holds a list of pgids and corresponding allocation txns
that are pending to be freed (parallel arrays, as in the source). -/
structure TxPending where
  ids : List Nat
  alloctx : List Nat
deriving DecidableEq, Repr, Inhabited

/-- A page view as supplied by the `PageStore` collaborator: id, overflow
count, header flags, 16-bit count field, and the raw array of `Nat`
slots that follows the header. -/
structure Page where
  id : Nat
  overflow : Nat
  flags : Nat
  count : Nat
  data : List Nat
deriving DecidableEq, Repr, Inhabited

/-- The freelist manager state.  `ids` is the legacy flat list field of
the source struct (written by `read`, unused by the hashmap variant);
`spans` is the span index (start, size), standing for the source's
`freemaps`/`forwardMap`/`backwardMap` triple; `allocs`, `pending` and
`cache` are as in the source. -/
structure Freelist where
  ids : List Nat
  allocs : List (Nat × Nat)
  pending : List (Nat × TxPending)
  cache : List Nat
  spans : List (Nat × Nat)
deriving DecidableEq, Repr, Inhabited

/-- Association-list lookup, embedding Go map indexing. -/
def lookupA {β : Type} (l : List (Nat × β)) (k : Nat) : Option β :=
  (l.find? (fun kv => kv.1 == k)).map (fun kv => kv.2)

/-- Association-list update, embedding Go map assignment: replace the
binding of `k` when present, otherwise add one. -/
def insertA {β : Type} : List (Nat × β) → Nat → β → List (Nat × β)
  | [], k, v => [(k, v)]
  | kv :: rest, k, v => if kv.1 = k then (k, v) :: rest else kv :: insertA rest k v

/-- Association-list deletion, embedding Go `delete`. -/
def eraseA {β : Type} (l : List (Nat × β)) (k : Nat) : List (Nat × β) :=
  l.filter (fun kv => kv.1 != k)

/-- `newFreelist` returns an empty, initialized freelist. -/
def newFreelist : Freelist :=
  { ids := [], allocs := [], pending := [], cache := [], spans := [] }

/-- Modelled from the spec: the `FreelistPageFlag` header flag of the
`common` package (its numeric value is irrelevant to the claims). -/
def freelistPageFlag : Nat := 0x10

/-- Modelled from the spec: the page header size of the `common`
package; the spec fixes only that the serialized size is
`header_size + sizeof(Pgid) * slots`. -/
def pageHeaderSize : Nat := 16

/-- Modelled from the spec: `sizeof(Pgid)` — 64-bit ids, 8 bytes. -/
def pgidSize : Nat := 8

/-- Modelled from the spec: `common.Page.IsFreelistPage` — the
`FreelistPageFlag` header flag identifies the page kind. -/
def Page.isFreelistPage (p : Page) : Bool :=
  p.flags &&& freelistPageFlag != 0

/-- Modelled from the spec: `common.Page.FreelistPageIds`, the decoder
of the counting convention.  If `header.count < 0xFFFF` the ids are the
first `count` array slots; if `header.count = 0xFFFF` the first slot
holds the real count `L` and the ids are the next `L` slots. -/
def Page.freelistPageIds (p : Page) : List Nat :=
  if p.count = 0xFFFF then
    match p.data with
    | [] => []
    | l :: rest => rest.take l
  else
    p.data.take p.count

/-- The ids covered by a span `(start, size)`: `start, …, start+size-1`. -/
def spanIds (sp : Nat × Nat) : List Nat :=
  (List.range sp.2).map (fun i => sp.1 + i)

/-- All ids covered by a span index. -/
def covOf (spans : List (Nat × Nat)) : List Nat :=
  spans.flatMap spanIds

/-- Modelled from the spec: `hashmapFreeCount` — the number of pages
currently in spans (the sum of all span sizes). -/
def hashmapFreeCount (f : Freelist) : Nat :=
  (f.spans.map (fun sp => sp.2)).sum

/-- Modelled from the spec: `hashmapGetFreePageIDs` — every id covered
by some span, in ascending order. -/
def hashmapGetFreePageIDs (f : Freelist) : List Nat :=
  List.insertionSort (· ≤ ·) (covOf f.spans)

/-- One step of run coalescing: push `id` onto a reversed stack of runs,
extending the most recent run when `id` continues it. -/
def insertRun (rs : List (Nat × Nat)) (id : Nat) : List (Nat × Nat) :=
  match rs with
  | [] => [(id, 1)]
  | (s, n) :: rest => if id = s + n then (s, n + 1) :: rest else (id, 1) :: (s, n) :: rest

/-- Coalesce a list of ids into runs `(start, size)`, in order. -/
def runsOf (ids : List Nat) : List (Nat × Nat) :=
  (ids.foldl insertRun []).reverse

/-- `pending_count` returns count of pending pages. -/
def pending_count (f : Freelist) : Nat :=
  (f.pending.map (fun kv => kv.2.ids.length)).sum

/-- `count` returns count of pages on the freelist. -/
def count (f : Freelist) : Nat :=
  hashmapFreeCount f + pending_count f

/-- `size` returns the size of the page after serialization. -/
def size (f : Freelist) : Nat :=
  let n := count f
  let n' := if n ≥ 0xFFFF then n + 1 else n
  pageHeaderSize + pgidSize * n'

/-- All pending ids, in pending-table order. -/
def pendingIds (f : Freelist) : List Nat :=
  (f.pending.map (fun kv => kv.2.ids)).flatten

/-- Modelled from the spec: `common.Mergepgids` — merge of two sorted
id lists into one sorted list. -/
def mergePgids : List Nat → List Nat → List Nat
  | [], ys => ys
  | x :: xs, [] => x :: xs
  | x :: xs, y :: ys =>
    if x ≤ y then x :: mergePgids xs (y :: ys) else y :: mergePgids (x :: xs) ys
termination_by a b => a.length + b.length

/-- `copyall` copies a list of all free ids and all pending ids in one
sorted list (the destination buffer is embedded as the returned list). -/
def copyall (f : Freelist) : List Nat :=
  let m := List.insertionSort (· ≤ ·) (pendingIds f)
  mergePgids (hashmapGetFreePageIDs f) m

/-- `reindex` rebuilds the free cache based on available and pending
free lists. -/
def reindex (f : Freelist) : Freelist :=
  { f with cache := hashmapGetFreePageIDs f ++ pendingIds f }

/-- Modelled from the spec: `hashmapReadIDs` — install the given ids
into the span index as spans, coalescing consecutive runs ("treat those
as the live free set"), then rebuild the page cache. -/
def hashmapReadIDs (f : Freelist) (pgids : List Nat) : Freelist :=
  reindex { f with spans := runsOf pgids }

/-- The ids `[p.id .. p.id + p.overflow]` covered by a page. -/
def rangeIds (p : Page) : List Nat :=
  (List.range (p.overflow + 1)).map (fun i => p.id + i)

/-- The per-id loop of `free`: check the cache, then add each id to the
pending bucket and the cache; `none` embeds the "already freed" panic. -/
def freeRange (cache : List Nat) (txp : TxPending) (allocTxid : Nat) :
    List Nat → Option (List Nat × TxPending)
  | [] => some (cache, txp)
  | id :: rest =>
    if id ∈ cache then none
    else freeRange (id :: cache) ⟨txp.ids ++ [id], txp.alloctx ++ [allocTxid]⟩ allocTxid rest

/-- `free` initially releases a page and its overflow for a given
transaction id.  `none` embeds the panics (page 0/1, double free). -/
def free (f : Freelist) (txid : Nat) (p : Page) : Option Freelist :=
  if p.id ≤ 1 then none
  else
    let txp := (lookupA f.pending txid).getD ⟨[], []⟩
    let allocTxid := (lookupA f.allocs p.id).getD 0
    let allocs' := if (lookupA f.allocs p.id).isSome then eraseA f.allocs p.id else f.allocs
    match freeRange f.cache txp allocTxid (rangeIds p) with
    | none => none
    | some (cache', txp') =>
      some { f with allocs := allocs', pending := insertA f.pending txid txp', cache := cache' }

/-- The safety test of `release`: a pending entry allocated at `atxid`
and freed by `ftxid` may be released iff no open reader `rtxid`
satisfies `atxid ≤ rtxid < ftxid`. -/
def safeToRelease (rtxids : List Nat) (atxid ftxid : Nat) : Bool :=
  rtxids.all (fun rtxid => !(decide (atxid ≤ rtxid) && decide (rtxid < ftxid)))

/-- The swap-remove loop of `release` over one pending bucket: safe
entries are collected into `m` and removed by overwriting slot `i` with
the last slot and shrinking. -/
def releaseLoop (rtxids : List Nat) (ftxid : Nat) :
    List Nat → List Nat → Nat → List Nat → List Nat × List Nat × List Nat
  | ids, alloctx, i, m =>
    if h : i < ids.length then
      if safeToRelease rtxids (alloctx.getD i 0) ftxid then
        releaseLoop rtxids ftxid ((ids.set i (ids.getLastD 0)).dropLast)
          ((alloctx.set i (alloctx.getLastD 0)).dropLast) i (m ++ [ids.getD i 0])
      else
        releaseLoop rtxids ftxid ids alloctx (i + 1) m
    else
      (m, ids, alloctx)
termination_by ids _ i _ => ids.length - i
decreasing_by
  · simp only [List.length_dropLast, List.length_set]; omega
  · omega

/-- Modelled from the spec: one merge step of `hashmapMergeSpans` —
look for a span ending at `id - 1` and a span starting at `id + 1`,
remove either/both, and insert a single coalesced span. -/
def mergeId (spans : List (Nat × Nat)) (id : Nat) : List (Nat × Nat) :=
  let left := spans.find? (fun sp => sp.1 + sp.2 - 1 == id - 1)
  let right := spans.find? (fun sp => sp.1 == id + 1)
  match left, right with
  | some (ls, ln), some (_, rn) =>
    (ls, ln + 1 + rn) ::
      ((spans.eraseP (fun sp => sp.1 + sp.2 - 1 == id - 1)).eraseP (fun sp => sp.1 == id + 1))
  | some (ls, ln), none =>
    (ls, ln + 1) :: spans.eraseP (fun sp => sp.1 + sp.2 - 1 == id - 1)
  | none, some (_, rn) =>
    (id, rn + 1) :: spans.eraseP (fun sp => sp.1 == id + 1)
  | none, none => (id, 1) :: spans

/-- Modelled from the spec: `hashmapMergeSpans` — fold each newly freed
id into the span index, coalescing with neighbors, and update the
cache. -/
def hashmapMergeSpans (f : Freelist) (ids : List Nat) : Freelist :=
  { f with
    spans := ids.foldl mergeId f.spans,
    cache := ids.foldl (fun c id => if id ∈ c then c else c ++ [id]) f.cache }

/-- One pending bucket of `release`: run the swap-remove loop on the
bucket, then keep the bucket only when entries remain (an emptied
bucket is deleted). -/
def releaseStep (rtxids : List Nat) (acc : List Nat × List (Nat × TxPending))
    (kv : Nat × TxPending) : List Nat × List (Nat × TxPending) :=
  let r1 := releaseLoop rtxids kv.1 kv.2.ids kv.2.alloctx 0 acc.1
  (r1.1, if r1.2.1.length = 0 then acc.2 else acc.2 ++ [(kv.1, ⟨r1.2.1, r1.2.2⟩)])

/-- `release` completely releases any pages associated with closed
read-only transactions.  Buckets are visited in table order; a bucket
left empty is deleted. -/
def release (f : Freelist) (rtxids : List Nat) : Freelist :=
  let r := f.pending.foldl (releaseStep rtxids) ([], [])
  hashmapMergeSpans { f with pending := r.2 } r.1

/-- The per-entry loop of `rollback`: drop each pending id from the
cache and restore `allocs` from the recorded allocator; `none` embeds
the self-free panic. -/
def rollbackLoop (txid : Nat) :
    List Nat → List (Nat × Nat) → List (Nat × Nat) →
    Option (List Nat × List (Nat × Nat))
  | cache, allocs, [] => some (cache, allocs)
  | cache, allocs, (pgid, tx) :: rest =>
    let cache' := cache.filter (fun x => x != pgid)
    if tx = 0 then rollbackLoop txid cache' allocs rest
    else if tx ≠ txid then rollbackLoop txid cache' (insertA allocs pgid tx) rest
    else none

/-- `rollback` removes the pages from a given pending tx.  `none`
embeds the self-free panic. -/
def rollback (f : Freelist) (txid : Nat) : Option Freelist :=
  match lookupA f.pending txid with
  | none => some f
  | some txp =>
    (rollbackLoop txid f.cache f.allocs (txp.ids.zip txp.alloctx)).map
      (fun r => { f with cache := r.1, allocs := r.2, pending := eraseA f.pending txid })

/-- `freed` returns whether a given page is in the free list. -/
def freed (f : Freelist) (pgId : Nat) : Bool :=
  pgId ∈ f.cache

/-- `read` initializes the freelist from a freelist page.  `none`
embeds the invalid-page-type panic.  When the page stores no ids only
the legacy flat list is cleared; otherwise the decoded ids are sorted
and handed to `readIDs`. -/
def read (f : Freelist) (p : Page) : Option Freelist :=
  if ¬ p.isFreelistPage then none
  else
    let ids := p.freelistPageIds
    if ids.length = 0 then some { f with ids := [] }
    else some (hashmapReadIDs f (List.insertionSort (· ≤ ·) ids))

/-- `write` writes the page ids onto a freelist page.  All free and
pending ids are saved.  Returns the (unchanged) manager, the mutated
page, and the error value (always `none`, i.e. nil). -/
def write (f : Freelist) (p : Page) : Freelist × Page × Option String :=
  let p1 := { p with flags := freelistPageFlag }
  let l := count f
  if l = 0 then
    (f, { p1 with count := l % 0x10000 }, none)
  else if l < 0xFFFF then
    (f, { p1 with count := l % 0x10000, data := copyall f }, none)
  else
    (f, { p1 with count := 0xFFFF, data := l :: copyall f }, none)

/-- `reload` reads the freelist from a page and filters out pending
items. -/
def reload (f : Freelist) (p : Page) : Option Freelist :=
  (read f p).map (fun f1 =>
    let pcache := pendingIds f1
    let a := (hashmapGetFreePageIDs f1).filter (fun id => !(id ∈ pcache : Bool))
    hashmapReadIDs f1 a)

/-- `noSyncReload` reads the freelist from pgids and filters out
pending items. -/
def noSyncReload (f : Freelist) (pgids : List Nat) : Freelist :=
  let pcache := pendingIds f
  let a := pgids.filter (fun id => !(id ∈ pcache : Bool))
  hashmapReadIDs f a

/-- Computes the minimum of a list of naturals, `none` on the empty
list. -/
def minNat? : List Nat → Option Nat
  | [] => none
  | x :: xs => some (xs.foldl Nat.min x)

/-- Modelled from the spec: `hashmapAllocate` — find the smallest span
size `m ≥ n` having at least one span, pick the span of that size with
the smallest start id, remove it, reinsert the remainder when `m > n`,
drop the allocated ids from the cache and record the allocating txn.
Returns 0 when no span of size ≥ n exists. -/
def hashmapAllocate (f : Freelist) (txid : Nat) (n : Nat) : Nat × Freelist :=
  let sizes := (f.spans.filter (fun sp => decide (n ≤ sp.2))).map (fun sp => sp.2)
  match minNat? sizes with
  | none => (0, f)
  | some m =>
    let starts := (f.spans.filter (fun sp => sp.2 == m)).map (fun sp => sp.1)
    match minNat? starts with
    | none => (0, f)
    | some s =>
      let spans1 := f.spans.eraseP (fun sp => sp.1 == s && sp.2 == m)
      let spans2 := if n < m then (s + n, m - n) :: spans1 else spans1
      (s, { f with
              spans := spans2,
              cache := f.cache.filter (fun id => !(decide (s ≤ id) && decide (id < s + n))),
              allocs := insertA f.allocs s txid })

/-! ## Basic lemmas about the merged sorted list -/

theorem mergePgids_length : ∀ a b : List Nat, (mergePgids a b).length = a.length + b.length
  | [], b => by simp [mergePgids]
  | x :: xs, [] => by simp [mergePgids]
  | x :: xs, y :: ys => by
    rw [mergePgids]
    split
    · have := mergePgids_length xs (y :: ys)
      simp only [List.length_cons] at *
      omega
    · have := mergePgids_length (x :: xs) ys
      simp only [List.length_cons] at *
      omega
termination_by a b => a.length + b.length

theorem mergePgids_mem : ∀ (a b : List Nat) (x : Nat), x ∈ mergePgids a b ↔ x ∈ a ∨ x ∈ b
  | [], b, x => by simp [mergePgids]
  | a :: as, [], x => by simp [mergePgids]
  | a :: as, b :: bs, x => by
    rw [mergePgids]
    split
    · have := mergePgids_mem as (b :: bs) x
      simp only [List.mem_cons] at *
      tauto
    · have := mergePgids_mem (a :: as) bs x
      simp only [List.mem_cons] at *
      tauto
termination_by a b _ => a.length + b.length

/-! ## Coverage of coalesced runs -/

theorem spanIds_length (sp : Nat × Nat) : (spanIds sp).length = sp.2 := by
  simp [spanIds]

theorem spanIds_succ (s n : Nat) : spanIds (s, n + 1) = spanIds (s, n) ++ [s + n] := by
  simp [spanIds, List.range_succ]

theorem covOf_append (xs ys : List (Nat × Nat)) :
    covOf (xs ++ ys) = covOf xs ++ covOf ys := by
  simp [covOf]

theorem covOf_length (spans : List (Nat × Nat)) :
    (covOf spans).length = (spans.map (fun sp => sp.2)).sum := by
  induction spans with
  | nil => simp [covOf]
  | cons hd tl ih => simp [covOf, spanIds_length] at *; omega

theorem insertRun_cov (acc : List (Nat × Nat)) (x : Nat) :
    covOf (insertRun acc x).reverse = covOf acc.reverse ++ [x] := by
  cases acc with
  | nil => simp [insertRun, covOf, spanIds, List.range_succ]
  | cons hd tl =>
    obtain ⟨s, n⟩ := hd
    by_cases h : x = s + n
    · simp only [insertRun, if_pos h, List.reverse_cons, covOf_append]
      have h1 : covOf [(s, n + 1)] = spanIds (s, n) ++ [s + n] := by
        simp [covOf, spanIds_succ]
      have h2 : covOf [(s, n)] = spanIds (s, n) := by simp [covOf]
      simp [h1, h2, h]
    · simp only [insertRun, if_neg h, List.reverse_cons, covOf_append]
      simp [covOf, spanIds, List.range_succ]

theorem foldl_insertRun_cov (l : List Nat) :
    ∀ acc : List (Nat × Nat),
      covOf ((l.foldl insertRun acc).reverse) = covOf acc.reverse ++ l := by
  induction l with
  | nil => simp
  | cons x xs ih =>
    intro acc
    rw [List.foldl_cons, ih, insertRun_cov, List.append_assoc]
    rfl

/-- The ids covered by the coalesced runs of `l` are exactly `l`. -/
theorem covOf_runsOf (l : List Nat) : covOf (runsOf l) = l := by
  simpa [runsOf, covOf] using foldl_insertRun_cov l []

/-! ## `copyall` and the serialization round trip -/

theorem hashmapGetFreePageIDs_length (f : Freelist) :
    (hashmapGetFreePageIDs f).length = hashmapFreeCount f := by
  rw [hashmapGetFreePageIDs, (List.perm_insertionSort _ _).length_eq, covOf_length,
    hashmapFreeCount]

theorem hashmapGetFreePageIDs_mem (f : Freelist) (x : Nat) :
    x ∈ hashmapGetFreePageIDs f ↔ x ∈ covOf f.spans := by
  exact (List.perm_insertionSort _ _).mem_iff

theorem pendingIds_length (f : Freelist) :
    (pendingIds f).length = pending_count f := by
  rw [pendingIds, List.length_flatten, pending_count, List.map_map]
  rfl

theorem copyall_length (f : Freelist) : (copyall f).length = count f := by
  rw [copyall, mergePgids_length, hashmapGetFreePageIDs_length,
    (List.perm_insertionSort _ _).length_eq, pendingIds_length, count]

theorem copyall_mem (f : Freelist) (x : Nat) :
    x ∈ copyall f ↔ x ∈ covOf f.spans ∨ x ∈ pendingIds f := by
  rw [copyall, mergePgids_mem, hashmapGetFreePageIDs_mem,
    (List.perm_insertionSort _ _).mem_iff]

theorem write_flags (f : Freelist) (p : Page) :
    ((write f p).2.1).flags = freelistPageFlag := by
  rw [write]
  split
  · rfl
  · split <;> rfl

theorem write_isFreelistPage (f : Freelist) (p : Page) :
    ((write f p).2.1).isFreelistPage = true := by
  rw [Page.isFreelistPage, write_flags]
  decide

theorem write_count_field (f : Freelist) (p : Page) :
    ((write f p).2.1).count = if count f < 0xFFFF then count f else 0xFFFF := by
  rw [write]
  split
  · rename_i h
    simp [h]
  · split
    · rename_i h
      simp only [if_pos h]
      exact Nat.mod_eq_of_lt (by omega)
    · rename_i h
      simp [if_neg h]

/-- Decoding the page produced by `write` recovers exactly the
`copyall` list. -/
theorem freelistPageIds_write (f : Freelist) (p : Page) :
    ((write f p).2.1).freelistPageIds = copyall f := by
  have hlen := copyall_length f
  rw [write]
  split
  · rename_i h
    have : copyall f = [] := List.length_eq_zero.mp (by omega)
    simp [Page.freelistPageIds, this, h]
  · split
    · rename_i h
      have hne : count f % 0x10000 ≠ 0xFFFF := by
        rw [Nat.mod_eq_of_lt (by omega)]
        omega
      simp only [Page.freelistPageIds, if_neg hne]
      rw [Nat.mod_eq_of_lt (by omega), ← hlen]
      exact List.take_length _
    · rename_i h
      simp only [Page.freelistPageIds, if_pos rfl]
      rw [← hlen]
      exact List.take_length _

/-! ## Claim theorems: frame of `write`, serialization convention, crash recovery -/

/-- C10: for every manager state, `write` mutates only the supplied
page (its flags, count field and id array); the manager value — span
index, pending table, allocs, cache and free count — is returned
unchanged, and the returned error is nil. -/
theorem claim_C10_write_frame (f : Freelist) (p : Page) :
    (write f p).1 = f ∧
    (write f p).2.2 = none ∧
    ((write f p).2.1).id = p.id ∧
    ((write f p).2.1).overflow = p.overflow ∧
    ((write f p).2.1).flags = freelistPageFlag := by
  rw [write]
  split
  · exact ⟨rfl, rfl, rfl, rfl, rfl⟩
  · split <;> exact ⟨rfl, rfl, rfl, rfl, rfl⟩

/-- C6: with `L = count f`, `write` sets the header count to `L` when
`L < 0xFFFF` (including `L = 0`, where the decoded array is empty) and
stores exactly the `L` ids of `copyall`; when `L ≥ 0xFFFF` it sets the
sentinel `0xFFFF`, stores `L + 1` slots whose first slot holds `L`, and
`size` is `header_size + sizeof(Pgid) * (L if L < 0xFFFF else L + 1)`. -/
theorem claim_C6_serialization_counting (f : Freelist) (p : Page) :
    ((write f p).2.1).count = (if count f < 0xFFFF then count f else 0xFFFF) ∧
    ((write f p).2.1).freelistPageIds = copyall f ∧
    (copyall f).length = count f ∧
    (if 0xFFFF ≤ count f then
        ((write f p).2.1).data.length = count f + 1 ∧
        ((write f p).2.1).data.head? = some (count f)
      else True) ∧
    size f = pageHeaderSize + pgidSize * (if count f < 0xFFFF then count f else count f + 1) := by
  refine ⟨write_count_field f p, freelistPageIds_write f p, copyall_length f, ?_, ?_⟩
  · split
    · rename_i h
      rw [write, if_neg (by omega), if_neg (by omega)]
      exact ⟨by simp [copyall_length f], rfl⟩
    · trivial
  · rw [size]
    by_cases h : count f ≥ 0xFFFF
    · simp only [if_pos h, if_neg (show ¬ count f < 0xFFFF by omega)]
    · simp only [if_neg h, if_pos (show count f < 0xFFFF by omega)]

/-- C1: crash-recovery law — for every manager state `M` (pending
included), writing the freelist page and reading it back on a fresh
manager yields a manager whose free-id set is the union of `M`'s free
ids and `M`'s pending ids, with an empty pending table. -/
theorem claim_C1_crash_recovery (f : Freelist) (p : Page) :
    ∃ M : Freelist,
      read newFreelist ((write f p).2.1) = some M ∧
      M.pending = [] ∧
      ∀ id : Nat,
        id ∈ hashmapGetFreePageIDs M ↔
          (id ∈ hashmapGetFreePageIDs f ∨ id ∈ pendingIds f) := by
  have hflag : ((write f p).2.1).isFreelistPage = true := write_isFreelistPage f p
  have hdec : ((write f p).2.1).freelistPageIds = copyall f := freelistPageIds_write f p
  by_cases hz : (copyall f).length = 0
  · refine ⟨{ newFreelist with ids := [] }, ?_, rfl, ?_⟩
    · rw [read, if_neg (not_not_intro hflag)]
      simp only [hdec, if_pos hz]
    · intro id
      have hid : id ∉ copyall f := by
        rw [List.length_eq_zero] at hz
        simp [hz]
      rw [copyall_mem] at hid
      push_neg at hid
      constructor
      · intro h
        exact absurd h (by simp [hashmapGetFreePageIDs, covOf, newFreelist])
      · rintro (h | h)
        · exact absurd ((hashmapGetFreePageIDs_mem f id).mp h) hid.1
        · exact absurd h hid.2
  · refine ⟨hashmapReadIDs newFreelist (List.insertionSort (· ≤ ·) (copyall f)), ?_, rfl, ?_⟩
    · rw [read, if_neg (not_not_intro hflag)]
      simp only [hdec, if_neg hz]
    · intro id
      have key :
          id ∈ hashmapGetFreePageIDs
              (hashmapReadIDs newFreelist (List.insertionSort (· ≤ ·) (copyall f))) ↔
            id ∈ copyall f := by
        rw [hashmapGetFreePageIDs_mem]
        show id ∈ covOf (runsOf (List.insertionSort (· ≤ ·) (copyall f))) ↔ _
        rw [covOf_runsOf, (List.perm_insertionSort _ _).mem_iff]
      rw [key, copyall_mem, hashmapGetFreePageIDs_mem]

/-! ## Association-list lemmas -/

theorem lookupA_nil {β : Type} (k : Nat) : lookupA ([] : List (Nat × β)) k = none := by
  simp [lookupA]

theorem lookupA_cons {β : Type} (hd : Nat × β) (tl : List (Nat × β)) (k : Nat) :
    lookupA (hd :: tl) k = if hd.1 = k then some hd.2 else lookupA tl k := by
  by_cases h : hd.1 = k <;> simp [lookupA, List.find?_cons, h]

theorem eraseA_cons {β : Type} (hd : Nat × β) (tl : List (Nat × β)) (k : Nat) :
    eraseA (hd :: tl) k = if hd.1 = k then eraseA tl k else hd :: eraseA tl k := by
  by_cases h : hd.1 = k <;> simp [eraseA, List.filter_cons, h]

theorem lookupA_insertA_self {β : Type} :
    ∀ (l : List (Nat × β)) (k : Nat) (v : β), lookupA (insertA l k v) k = some v
  | [], k, v => by simp [insertA, lookupA_cons]
  | hd :: tl, k, v => by
    rw [insertA]
    by_cases h : hd.1 = k
    · rw [if_pos h, lookupA_cons, if_pos rfl]
    · rw [if_neg h, lookupA_cons, if_neg h]
      exact lookupA_insertA_self tl k v

theorem lookupA_insertA_ne {β : Type} :
    ∀ (l : List (Nat × β)) (k k' : Nat) (v : β), k' ≠ k →
      lookupA (insertA l k v) k' = lookupA l k'
  | [], k, k', v, hne => by
    simp [insertA, lookupA_cons, lookupA_nil, Ne.symm hne]
  | hd :: tl, k, k', v, hne => by
    rw [insertA]
    by_cases h : hd.1 = k
    · rw [if_pos h, lookupA_cons, lookupA_cons, if_neg (Ne.symm hne), h,
        if_neg (Ne.symm hne)]
    · rw [if_neg h, lookupA_cons, lookupA_cons]
      by_cases h2 : hd.1 = k'
      · rw [if_pos h2, if_pos h2]
      · rw [if_neg h2, if_neg h2]
        exact lookupA_insertA_ne tl k k' v hne

theorem lookupA_eraseA_self {β : Type} :
    ∀ (l : List (Nat × β)) (k : Nat), lookupA (eraseA l k) k = none
  | [], k => by simp [eraseA, lookupA_nil]
  | hd :: tl, k => by
    rw [eraseA_cons]
    by_cases h : hd.1 = k
    · rw [if_pos h]
      exact lookupA_eraseA_self tl k
    · rw [if_neg h, lookupA_cons, if_neg h]
      exact lookupA_eraseA_self tl k

theorem lookupA_eraseA_ne {β : Type} :
    ∀ (l : List (Nat × β)) (k k' : Nat), k' ≠ k →
      lookupA (eraseA l k) k' = lookupA l k'
  | [], k, k', hne => by simp [eraseA]
  | hd :: tl, k, k', hne => by
    rw [eraseA_cons]
    by_cases h : hd.1 = k
    · rw [if_pos h, lookupA_cons, if_neg (h ▸ Ne.symm hne)]
      exact lookupA_eraseA_ne tl k k' hne
    · rw [if_neg h, lookupA_cons, lookupA_cons]
      by_cases h2 : hd.1 = k'
      · rw [if_pos h2, if_pos h2]
      · rw [if_neg h2, if_neg h2]
        exact lookupA_eraseA_ne tl k k' hne

/-! ## Lemmas about the `free` loop -/

theorem rangeIds_nodup (p : Page) : (rangeIds p).Nodup := by
  rw [rangeIds]
  refine (List.nodup_range _).map ?_
  intro a b h
  have h2 : p.id + a = p.id + b := h
  omega

theorem freeRange_none_iff :
    ∀ (l : List Nat) (c : List Nat) (txp : TxPending) (a : Nat), l.Nodup →
      (freeRange c txp a l = none ↔ ∃ id, id ∈ l ∧ id ∈ c)
  | [], c, txp, a, _ => by simp [freeRange]
  | id :: rest, c, txp, a, hnd => by
    rw [freeRange]
    by_cases hc : id ∈ c
    · rw [if_pos hc]
      constructor
      · intro _
        exact ⟨id, List.mem_cons_self id rest, hc⟩
      · intro _
        rfl
    · rw [if_neg hc]
      have hni : id ∉ rest := (List.nodup_cons.mp hnd).1
      rw [freeRange_none_iff rest (id :: c) _ a (List.nodup_cons.mp hnd).2]
      constructor
      · rintro ⟨j, hj, hjc⟩
        rcases List.mem_cons.mp hjc with rfl | hjc
        · exact absurd hj hni
        · exact ⟨j, List.mem_cons_of_mem _ hj, hjc⟩
      · rintro ⟨j, hj, hjc⟩
        rcases List.mem_cons.mp hj with rfl | hj
        · exact absurd hjc hc
        · exact ⟨j, hj, List.mem_cons_of_mem _ hjc⟩

theorem freeRange_some :
    ∀ (l : List Nat) (c : List Nat) (txp : TxPending) (a : Nat)
      (r : List Nat × TxPending), freeRange c txp a l = some r →
      r.2.ids = txp.ids ++ l ∧
      r.2.alloctx = txp.alloctx ++ l.map (fun _ => a) ∧
      ∀ x, x ∈ r.1 ↔ x ∈ l ∨ x ∈ c
  | [], c, txp, a, r => by
    intro h
    rw [freeRange] at h
    cases h
    simp
  | id :: rest, c, txp, a, r => by
    intro h
    rw [freeRange] at h
    by_cases hc : id ∈ c
    · rw [if_pos hc] at h
      cases h
    · rw [if_neg hc] at h
      obtain ⟨h1, h2, h3⟩ := freeRange_some rest (id :: c) _ a r h
      refine ⟨by simpa using h1, by simpa using h2, ?_⟩
      intro x
      rw [h3 x]
      simp only [List.mem_cons]
      tauto

/-! ## Claim theorems: `free` error handling and effect -/

/-- C4: `free` fails fatally iff the page id is ≤ 1 (`InvalidPageId`)
or some id of the page's range already sits in the cache
(`DoubleFree`); otherwise it succeeds. -/
theorem claim_C4_free_failure_iff (f : Freelist) (tx : Nat) (p : Page) :
    free f tx p = none ↔ p.id ≤ 1 ∨ ∃ id, id ∈ rangeIds p ∧ id ∈ f.cache := by
  simp only [free]
  by_cases h1 : p.id ≤ 1
  · simp [h1]
  · rw [if_neg h1]
    have hnd : (rangeIds p).Nodup := rangeIds_nodup p
    cases hfr : freeRange f.cache ((lookupA f.pending tx).getD ⟨[], []⟩)
        ((lookupA f.allocs p.id).getD 0) (rangeIds p) with
    | none =>
      constructor
      · intro _
        exact Or.inr ((freeRange_none_iff _ _ _ _ hnd).mp hfr)
      · intro _
        rfl
    | some r =>
      obtain ⟨rc, rtxp⟩ := r
      constructor
      · intro hc
        simp at hc
      · rintro (h | hex)
        · exact absurd h h1
        · have h2 := (freeRange_none_iff (rangeIds p) f.cache
            ((lookupA f.pending tx).getD ⟨[], []⟩)
            ((lookupA f.allocs p.id).getD 0) hnd).mpr hex
          rw [hfr] at h2
          cases h2

/-- C3: a successful `free tx p` removes `p.id` from `allocs` (leaving
other keys alone), appends to `pending[tx]` one entry per id of the
range `[p.id .. p.id + p.overflow]`, all carrying the allocator value
recorded for `p.id` (0 when absent), and inserts every id of the range
into the cache. -/
theorem claim_C3_free_success (f : Freelist) (tx : Nat) (p : Page) (f' : Freelist)
    (h : free f tx p = some f') :
    lookupA f'.allocs p.id = none ∧
    (∀ k, k ≠ p.id → lookupA f'.allocs k = lookupA f.allocs k) ∧
    (∃ txp' : TxPending,
      lookupA f'.pending tx = some txp' ∧
      txp'.ids = ((lookupA f.pending tx).getD ⟨[], []⟩).ids ++ rangeIds p ∧
      txp'.alloctx = ((lookupA f.pending tx).getD ⟨[], []⟩).alloctx ++
        (rangeIds p).map (fun _ => (lookupA f.allocs p.id).getD 0)) ∧
    (∀ id, id ∈ rangeIds p → id ∈ f'.cache) := by
  simp only [free] at h
  by_cases h1 : p.id ≤ 1
  · rw [if_pos h1] at h
    cases h
  · rw [if_neg h1] at h
    cases hfr : freeRange f.cache ((lookupA f.pending tx).getD ⟨[], []⟩)
        ((lookupA f.allocs p.id).getD 0) (rangeIds p) with
    | none =>
      rw [hfr] at h
      cases h
    | some r =>
      obtain ⟨rc, rtxp⟩ := r
      rw [hfr] at h
      obtain ⟨hids, hatx, hmem⟩ := freeRange_some _ _ _ _ _ hfr
      cases h
      refine ⟨?_, ?_, ⟨rtxp, ?_, hids, hatx⟩, ?_⟩
      · show lookupA (if (lookupA f.allocs p.id).isSome then eraseA f.allocs p.id
          else f.allocs) p.id = none
        split
        · exact lookupA_eraseA_self f.allocs p.id
        · rename_i hns
          rwa [Option.not_isSome_iff_eq_none] at hns
      · intro k hk
        show lookupA (if (lookupA f.allocs p.id).isSome then eraseA f.allocs p.id
          else f.allocs) k = lookupA f.allocs k
        split
        · exact lookupA_eraseA_ne f.allocs p.id k hk
        · rfl
      · exact lookupA_insertA_self f.pending tx rtxp
      · intro id hid
        exact (hmem id).mpr (Or.inl hid)

/-- A concrete pre-state for exercising `free` (scenario: `allocs[50] = 3`). -/
def exFreePre : Freelist :=
  { ids := [], allocs := [(50, 3)], pending := [], cache := [], spans := [] }

/-- The page `{id = 50, overflow = 0}` used with `exFreePre`. -/
def exFreePage : Page :=
  { id := 50, overflow := 0, flags := 0, count := 0, data := [] }

/-- The state after `free exFreePre 7 exFreePage`. -/
def exFreePost : Freelist :=
  { ids := [], allocs := [], pending := [(7, ⟨[50], [3]⟩)], cache := [50], spans := [] }

/-- Witness for C3: the `free` effect theorem applied at a concrete call. -/
theorem claim_C3_witness :
    free exFreePre 7 exFreePage = some exFreePost ∧
    (lookupA exFreePost.allocs exFreePage.id = none ∧
      (∀ k, k ≠ exFreePage.id →
        lookupA exFreePost.allocs k = lookupA exFreePre.allocs k) ∧
      (∃ txp' : TxPending,
        lookupA exFreePost.pending 7 = some txp' ∧
        txp'.ids = ((lookupA exFreePre.pending 7).getD ⟨[], []⟩).ids ++ rangeIds exFreePage ∧
        txp'.alloctx = ((lookupA exFreePre.pending 7).getD ⟨[], []⟩).alloctx ++
          (rangeIds exFreePage).map
            (fun _ => (lookupA exFreePre.allocs exFreePage.id).getD 0)) ∧
      (∀ id, id ∈ rangeIds exFreePage → id ∈ exFreePost.cache)) :=
  ⟨by decide, claim_C3_free_success exFreePre 7 exFreePage exFreePost (by decide)⟩

/-! ## Lemmas about the `rollback` loop -/

theorem rollbackLoop_none_iff (txid : Nat) :
    ∀ (zip : List (Nat × Nat)) (cache : List Nat) (allocs : List (Nat × Nat)),
      (rollbackLoop txid cache allocs zip = none ↔
        ∃ pr, pr ∈ zip ∧ pr.2 = txid ∧ pr.2 ≠ 0)
  | [], cache, allocs => by simp [rollbackLoop]
  | (pgid, tx) :: rest, cache, allocs => by
    rw [rollbackLoop]
    by_cases h0 : tx = 0
    · rw [if_pos h0, rollbackLoop_none_iff txid rest]
      constructor
      · rintro ⟨pr, hm, h1, h2⟩
        exact ⟨pr, List.mem_cons_of_mem _ hm, h1, h2⟩
      · rintro ⟨pr, hm, h1, h2⟩
        rcases List.mem_cons.mp hm with rfl | hm
        · exact absurd h0 h2
        · exact ⟨pr, hm, h1, h2⟩
    · rw [if_neg h0]
      by_cases ht : tx ≠ txid
      · rw [if_pos ht, rollbackLoop_none_iff txid rest]
        constructor
        · rintro ⟨pr, hm, h1, h2⟩
          exact ⟨pr, List.mem_cons_of_mem _ hm, h1, h2⟩
        · rintro ⟨pr, hm, h1, h2⟩
          rcases List.mem_cons.mp hm with rfl | hm
          · exact absurd h1 ht
          · exact ⟨pr, hm, h1, h2⟩
      · rw [if_neg ht]
        rw [Classical.not_not] at ht
        constructor
        · intro _
          exact ⟨(pgid, tx), List.mem_cons_self _ _, ht, h0⟩
        · intro _
          rfl

theorem rollbackLoop_some (txid : Nat) :
    ∀ (zip : List (Nat × Nat)) (cache : List Nat) (allocs : List (Nat × Nat))
      (r : List Nat × List (Nat × Nat)),
      rollbackLoop txid cache allocs zip = some r →
      (zip.map Prod.fst).Nodup →
      (∀ x, x ∈ r.1 → x ∈ cache) ∧
      (∀ pr, pr ∈ zip → pr.1 ∉ r.1) ∧
      (∀ pr, pr ∈ zip → pr.2 ≠ 0 → pr.2 ≠ txid → lookupA r.2 pr.1 = some pr.2) ∧
      (∀ k, k ∉ zip.map Prod.fst → lookupA r.2 k = lookupA allocs k)
  | [], cache, allocs, r => by
    intro h _
    rw [rollbackLoop] at h
    cases h
    exact ⟨fun x hx => hx, by simp, by simp, fun k _ => rfl⟩
  | (pgid, tx) :: rest, cache, allocs, r => by
    intro h hnd
    rw [rollbackLoop] at h
    rw [List.map_cons, List.nodup_cons] at hnd
    have hfilter_sub : ∀ x, x ∈ cache.filter (fun x => x != pgid) → x ∈ cache :=
      fun x hx => List.mem_of_mem_filter hx
    have hfilter_out : pgid ∉ cache.filter (fun x => x != pgid) := by
      intro hx
      have := (List.mem_filter.mp hx).2
      simp at this
    by_cases h0 : tx = 0
    · rw [if_pos h0] at h
      obtain ⟨ih1, ih2, ih3, ih4⟩ := rollbackLoop_some txid rest _ _ r h hnd.2
      refine ⟨fun x hx => hfilter_sub x (ih1 x hx), ?_, ?_, ?_⟩
      · intro pr hm
        rcases List.mem_cons.mp hm with rfl | hm
        · intro hx
          exact hfilter_out (ih1 _ hx)
        · exact ih2 pr hm
      · intro pr hm hp0 hpt
        rcases List.mem_cons.mp hm with rfl | hm
        · exact absurd h0 hp0
        · exact ih3 pr hm hp0 hpt
      · intro k hk
        simp only [List.map_cons, List.mem_cons, not_or] at hk
        exact ih4 k hk.2
    · rw [if_neg h0] at h
      by_cases ht : tx ≠ txid
      · rw [if_pos ht] at h
        obtain ⟨ih1, ih2, ih3, ih4⟩ := rollbackLoop_some txid rest _ _ r h hnd.2
        refine ⟨fun x hx => hfilter_sub x (ih1 x hx), ?_, ?_, ?_⟩
        · intro pr hm
          rcases List.mem_cons.mp hm with rfl | hm
          · intro hx
            exact hfilter_out (ih1 _ hx)
          · exact ih2 pr hm
        · intro pr hm hp0 hpt
          rcases List.mem_cons.mp hm with rfl | hm
          · rw [ih4 _ hnd.1]
            exact lookupA_insertA_self allocs _ _
          · exact ih3 pr hm hp0 hpt
        · intro k hk
          simp only [List.map_cons, List.mem_cons, not_or] at hk
          rw [ih4 k hk.2]
          exact lookupA_insertA_ne allocs pgid k tx hk.1
      · rw [if_neg ht] at h
        cases h

/-! ## Claim theorem: `rollback` -/

/-- C5 (amended): `rollback t` is the identity when `pending[t]` is
absent; when `pending[t]` exists but is empty the only change is that
the empty bucket is deleted; otherwise every pending id of `t` leaves
the cache, every entry whose recorded allocator is neither 0 nor `t`
has its `allocs` binding restored, any entry recorded with nonzero
allocator `t` panics (`SelfFree`), and the bucket `t` is deleted. -/
theorem claim_C5_rollback (f : Freelist) (t : Nat) :
    (lookupA f.pending t = none → rollback f t = some f) ∧
    (∀ txp : TxPending, lookupA f.pending t = some txp → txp.ids = [] →
      rollback f t = some { f with pending := eraseA f.pending t }) ∧
    (∀ txp : TxPending, lookupA f.pending t = some txp →
      txp.ids.length = txp.alloctx.length → txp.ids.Nodup →
      (((∃ pr, pr ∈ txp.ids.zip txp.alloctx ∧ pr.2 = t ∧ pr.2 ≠ 0) →
          rollback f t = none) ∧
        ((∀ pr, pr ∈ txp.ids.zip txp.alloctx → pr.2 = t → pr.2 = 0) →
          ∃ f', rollback f t = some f' ∧
            lookupA f'.pending t = none ∧
            (∀ k, k ≠ t → lookupA f'.pending k = lookupA f.pending k) ∧
            (∀ pr, pr ∈ txp.ids.zip txp.alloctx → pr.1 ∉ f'.cache) ∧
            (∀ pr, pr ∈ txp.ids.zip txp.alloctx → pr.2 ≠ 0 → pr.2 ≠ t →
              lookupA f'.allocs pr.1 = some pr.2) ∧
            (∀ x, x ∈ f'.cache → x ∈ f.cache)))) := by
  refine ⟨?_, ?_, ?_⟩
  · intro h
    simp only [rollback, h]
  · intro txp h hids
    simp only [rollback, h]
    rw [hids]
    simp [rollbackLoop]
  · intro txp h hlen hnd
    have hndz : ((txp.ids.zip txp.alloctx).map Prod.fst).Nodup := by
      rw [List.map_fst_zip _ _ (le_of_eq hlen)]
      exact hnd
    constructor
    · intro hex
      simp only [rollback, h]
      rw [(rollbackLoop_none_iff t _ f.cache f.allocs).mpr hex]
      rfl
    · intro hall
      cases hr : rollbackLoop t f.cache f.allocs (txp.ids.zip txp.alloctx) with
      | none =>
        obtain ⟨pr, hm, h1, h2⟩ := (rollbackLoop_none_iff t _ f.cache f.allocs).mp hr
        exact absurd (hall pr hm h1) h2
      | some r =>
        obtain ⟨ih1, ih2, ih3, _⟩ := rollbackLoop_some t _ _ _ r hr hndz
        refine ⟨{ f with cache := r.1, allocs := r.2, pending := eraseA f.pending t },
          ?_, ?_, ?_, ih2, ih3, ih1⟩
        · simp only [rollback, h]
          rw [hr]
          rfl
        · exact lookupA_eraseA_self f.pending t
        · intro k hk
          exact lookupA_eraseA_ne f.pending t k hk

/-- A manager whose `pending[7]` bucket is present but empty. -/
def exRbEmptyBucket : Freelist :=
  { ids := [], allocs := [], pending := [(7, ⟨[], []⟩)], cache := [], spans := [] }

/-- Counterexample for C5 as stated: with a present-but-empty bucket
`pending[7]`, `rollback 7` is not a no-op — it deletes the bucket. -/
theorem claim_C5_counterexample :
    rollback exRbEmptyBucket 7 ≠ some exRbEmptyBucket := by
  decide

/-- A concrete pre-state for exercising `rollback`. -/
def exRbPre : Freelist :=
  { ids := [], allocs := [], pending := [(7, ⟨[50], [3]⟩)], cache := [50], spans := [] }

/-- Witness for C5: the rollback theorem applied at a concrete state. -/
theorem claim_C5_witness :
    ∃ f', rollback exRbPre 7 = some f' ∧
      lookupA f'.pending 7 = none ∧
      (∀ k, k ≠ 7 → lookupA f'.pending k = lookupA exRbPre.pending k) ∧
      (∀ pr, pr ∈ List.zip [50] [3] → pr.1 ∉ f'.cache) ∧
      (∀ pr, pr ∈ List.zip [50] [3] → pr.2 ≠ 0 → pr.2 ≠ 7 →
        lookupA f'.allocs pr.1 = some pr.2) ∧
      (∀ x, x ∈ f'.cache → x ∈ exRbPre.cache) :=
  ((claim_C5_rollback exRbPre 7).2.2 ⟨[50], [3]⟩ (by decide) (by decide)
    (by decide)).2 (by decide)

/-! ## Claim theorems: `read` and `reload`/`noSyncReload` -/

/-- C7 (amended): `read` panics on a non-freelist page; on a freelist
page storing at least one id the free set becomes exactly the decoded
ids (installed as coalesced spans) and the cache is rebuilt as those
ids together with the pending ids; on a freelist page storing zero ids
only the legacy flat `ids` field is cleared — the span index, cache and
pending table are left as they were. -/
theorem claim_C7_read (f : Freelist) (p : Page) :
    (p.isFreelistPage = false → read f p = none) ∧
    (p.isFreelistPage = true → p.freelistPageIds = [] →
      read f p = some { f with ids := [] }) ∧
    (p.isFreelistPage = true → p.freelistPageIds ≠ [] →
      ∃ f', read f p = some f' ∧
        (∀ id, id ∈ hashmapGetFreePageIDs f' ↔ id ∈ p.freelistPageIds) ∧
        (∀ id, id ∈ f'.cache ↔ (id ∈ p.freelistPageIds ∨ id ∈ pendingIds f)) ∧
        f'.pending = f.pending) := by
  refine ⟨?_, ?_, ?_⟩
  · intro hfl
    rw [read, if_pos (by simp [hfl])]
  · intro hfl hemp
    rw [read, if_neg (not_not_intro hfl)]
    simp only [hemp]
    simp
  · intro hfl hne
    have hlen : ¬ p.freelistPageIds.length = 0 := by
      simpa [List.length_eq_zero] using hne
    refine ⟨hashmapReadIDs f (List.insertionSort (· ≤ ·) p.freelistPageIds), ?_, ?_, ?_, rfl⟩
    · rw [read, if_neg (not_not_intro hfl)]
      simp only [if_neg hlen]
    · intro id
      show id ∈ List.insertionSort (· ≤ ·)
          (covOf (runsOf (List.insertionSort (· ≤ ·) p.freelistPageIds))) ↔ _
      rw [(List.perm_insertionSort _ _).mem_iff, covOf_runsOf,
        (List.perm_insertionSort _ _).mem_iff]
    · intro id
      show id ∈ List.insertionSort (· ≤ ·)
          (covOf (runsOf (List.insertionSort (· ≤ ·) p.freelistPageIds))) ++ pendingIds f ↔ _
      rw [List.mem_append, (List.perm_insertionSort _ _).mem_iff, covOf_runsOf,
        (List.perm_insertionSort _ _).mem_iff]

/-- A dirty manager (one span, one pending id) for the C7/C8
counterexamples. -/
def exDirty : Freelist :=
  { ids := [], allocs := [], pending := [(2, ⟨[7], [0]⟩)], cache := [5, 7], spans := [(5, 1)] }

/-- A freelist page that stores zero ids. -/
def exEmptyPage : Page :=
  { id := 33, overflow := 0, flags := freelistPageFlag, count := 0, data := [] }

/-- Counterexample for C7 as stated: reading a freelist page with zero
ids over a manager that still holds a span leaves the old span in the
free set, so the free set does not equal the decoded (empty) id list,
and the cache is not rebuilt either. -/
theorem claim_C7_counterexample :
    exEmptyPage.isFreelistPage = true ∧
    exEmptyPage.freelistPageIds = [] ∧
    read exDirty exEmptyPage = some { exDirty with ids := [] } ∧
    5 ∈ hashmapGetFreePageIDs { exDirty with ids := [] } ∧
    5 ∉ exEmptyPage.freelistPageIds := by
  decide

/-- `hashmapReadIDs` only reads the `ids`, `allocs` and `pending`
fields of the state it rebuilds (spans and cache are overwritten). -/
theorem hashmapReadIDs_congr (f g : Freelist) (pgids : List Nat)
    (h1 : f.ids = g.ids) (h2 : f.allocs = g.allocs) (h3 : f.pending = g.pending) :
    hashmapReadIDs f pgids = hashmapReadIDs g pgids := by
  obtain ⟨i1, a1, p1, c1, s1⟩ := f
  obtain ⟨i2, a2, p2, c2, s2⟩ := g
  simp only at h1 h2 h3
  subst h1
  subst h2
  subst h3
  rfl

/-- C8 (amended): for a freelist page storing at least one id, in
strictly ascending order, `reload p` produces exactly the state of
`noSyncReload` on the decoded id list: the free set becomes the decoded
ids not currently pending and the cache becomes the installed spans
together with the pending ids. -/
theorem claim_C8_reload_refines_noSyncReload (f : Freelist) (p : Page)
    (hfl : p.isFreelistPage = true) (hne : p.freelistPageIds ≠ [])
    (hsorted : List.Chain' (· < ·) p.freelistPageIds) :
    reload f p = some (noSyncReload f p.freelistPageIds) ∧
    (∀ id, id ∈ hashmapGetFreePageIDs (noSyncReload f p.freelistPageIds) ↔
      (id ∈ p.freelistPageIds ∧ id ∉ pendingIds f)) ∧
    (∀ id, id ∈ (noSyncReload f p.freelistPageIds).cache ↔
      ((id ∈ p.freelistPageIds ∧ id ∉ pendingIds f) ∨ id ∈ pendingIds f)) := by
  have hsle : List.Sorted (· ≤ ·) p.freelistPageIds := by
    rw [List.Sorted, ← List.chain'_iff_pairwise]
    exact hsorted.imp (fun _ _ h => le_of_lt h)
  have hsort_eq : List.insertionSort (· ≤ ·) p.freelistPageIds = p.freelistPageIds :=
    hsle.insertionSort_eq
  have hlen : ¬ p.freelistPageIds.length = 0 := by
    simpa [List.length_eq_zero] using hne
  have hread : read f p = some (hashmapReadIDs f p.freelistPageIds) := by
    rw [read, if_neg (not_not_intro hfl)]
    simp only [if_neg hlen, hsort_eq]
  have hfree1 : hashmapGetFreePageIDs (hashmapReadIDs f p.freelistPageIds) =
      p.freelistPageIds := by
    show List.insertionSort (· ≤ ·) (covOf (runsOf p.freelistPageIds)) = _
    rw [covOf_runsOf, hsort_eq]
  have hpend1 : pendingIds (hashmapReadIDs f p.freelistPageIds) = pendingIds f := rfl
  have hfilter :
      ∀ id : Nat, (id ∈ p.freelistPageIds.filter (fun id => !(id ∈ pendingIds f : Bool))) ↔
        (id ∈ p.freelistPageIds ∧ id ∉ pendingIds f) := by
    intro id
    rw [List.mem_filter]
    simp
  refine ⟨?_, ?_, ?_⟩
  · simp only [reload, hread, Option.map_some', noSyncReload]
    simp only [hfree1, hpend1]
    exact congrArg some
      (hashmapReadIDs_congr (hashmapReadIDs f p.freelistPageIds) f _ rfl rfl rfl)
  · intro id
    rw [noSyncReload]
    show id ∈ List.insertionSort (· ≤ ·)
        (covOf (runsOf (p.freelistPageIds.filter _))) ↔ _
    rw [(List.perm_insertionSort _ _).mem_iff, covOf_runsOf]
    exact hfilter id
  · intro id
    rw [noSyncReload]
    show id ∈ List.insertionSort (· ≤ ·)
        (covOf (runsOf (p.freelistPageIds.filter _))) ++ pendingIds f ↔ _
    rw [List.mem_append, (List.perm_insertionSort _ _).mem_iff, covOf_runsOf]
    rw [hfilter id]

/-- A freelist page storing the two ids `{4, 7}`. -/
def exPage47 : Page :=
  { id := 33, overflow := 0, flags := freelistPageFlag, count := 2, data := [4, 7] }

/-- Counterexample for C8 as stated: on a page storing zero ids,
`reload` keeps the old span (because `read` skips `readIDs` for an
empty list) while `noSyncReload` of the decoded (empty) list clears it,
so the two end states differ. -/
theorem claim_C8_counterexample :
    reload exDirty exEmptyPage ≠
      some (noSyncReload exDirty exEmptyPage.freelistPageIds) := by
  decide

/-- Witness for C8: the reload/noSyncReload equivalence at a concrete
dirty manager and a sorted two-id page. -/
theorem claim_C8_witness :
    reload exDirty exPage47 = some (noSyncReload exDirty exPage47.freelistPageIds) ∧
    (∀ id, id ∈ hashmapGetFreePageIDs (noSyncReload exDirty exPage47.freelistPageIds) ↔
      (id ∈ exPage47.freelistPageIds ∧ id ∉ pendingIds exDirty)) ∧
    (∀ id, id ∈ (noSyncReload exDirty exPage47.freelistPageIds).cache ↔
      ((id ∈ exPage47.freelistPageIds ∧ id ∉ pendingIds exDirty) ∨
        id ∈ pendingIds exDirty)) :=
by
  have hdec : exPage47.freelistPageIds = [4, 7] := by decide
  exact claim_C8_reload_refines_noSyncReload exDirty exPage47 (by decide) (by decide)
    (by rw [hdec]; simp)

/-! ## Minimum lemmas and the allocator claim -/

theorem minNat?_eq_none : ∀ l : List Nat, minNat? l = none ↔ l = []
  | [] => by simp [minNat?]
  | x :: xs => by simp [minNat?]

theorem foldl_min_mem : ∀ (xs : List Nat) (x : Nat), xs.foldl Nat.min x ∈ x :: xs
  | [], x => by simp
  | y :: ys, x => by
    rw [List.foldl_cons]
    have h := foldl_min_mem ys (Nat.min x y)
    rcases List.mem_cons.mp h with heq | hm
    · rw [heq]
      rcases min_choice x y with h1 | h1
      · have h2 : Nat.min x y = x := h1
        rw [h2]
        exact List.mem_cons_self _ _
      · have h2 : Nat.min x y = y := h1
        rw [h2]
        exact List.mem_cons_of_mem _ (List.mem_cons_self _ _)
    · exact List.mem_cons_of_mem _ (List.mem_cons_of_mem _ hm)

theorem foldl_min_le : ∀ (xs : List Nat) (x b : Nat), b ∈ x :: xs →
    xs.foldl Nat.min x ≤ b
  | [], x, b => by
    intro hb
    rcases List.mem_cons.mp hb with rfl | hb
    · exact le_refl b
    · cases hb
  | y :: ys, x, b => by
    intro hb
    rw [List.foldl_cons]
    have hself := foldl_min_le ys (Nat.min x y) (Nat.min x y) (List.mem_cons_self _ _)
    rcases List.mem_cons.mp hb with h1 | hb
    · rw [h1]
      exact le_trans hself (Nat.min_le_left x y)
    · rcases List.mem_cons.mp hb with h1 | hb2
      · rw [h1]
        exact le_trans hself (Nat.min_le_right x y)
      · exact foldl_min_le ys (Nat.min x y) b (List.mem_cons_of_mem _ hb2)

theorem minNat?_mem_le (l : List Nat) (y : Nat) (h : minNat? l = some y) :
    y ∈ l ∧ ∀ b ∈ l, y ≤ b := by
  cases l with
  | nil => cases h
  | cons x xs =>
    rw [minNat?] at h
    cases h
    exact ⟨foldl_min_mem xs x, fun b hb => foldl_min_le xs x b hb⟩

theorem minNat?_eq_some (l : List Nat) (a : Nat) (hmem : a ∈ l)
    (hmin : ∀ b ∈ l, a ≤ b) : minNat? l = some a := by
  cases h : minNat? l with
  | none =>
    rw [minNat?_eq_none] at h
    subst h
    cases hmem
  | some y =>
    obtain ⟨hy1, hy2⟩ := minNat?_mem_le l y h
    have h1 := hy2 a hmem
    have h2 := hmin y hy1
    rw [Nat.le_antisymm h1 h2]

/-- C9: `allocate tx n` takes the span of the smallest size `m ≥ n`
present, choosing the smallest start id `s` in that size bucket; it
returns `s`, replaces that span by the remainder `(s+n, m-n)` when
`m > n`, records `allocs[s] = tx`, removes the allocated ids from the
cache, and returns 0 when no span of size ≥ n exists. -/
theorem claim_C9_allocate (f : Freelist) (tx n : Nat) :
    ((∀ sp, sp ∈ f.spans → sp.2 < n) → hashmapAllocate f tx n = (0, f)) ∧
    (∀ s m, (s, m) ∈ f.spans → n ≤ m →
      (∀ sp, sp ∈ f.spans → n ≤ sp.2 → m ≤ sp.2) →
      (∀ sp, sp ∈ f.spans → sp.2 = m → s ≤ sp.1) →
      (hashmapAllocate f tx n).1 = s ∧
      (hashmapAllocate f tx n).2.spans =
        (if n < m then [(s + n, m - n)] else []) ++
          f.spans.eraseP (fun sp => sp.1 == s && sp.2 == m) ∧
      lookupA (hashmapAllocate f tx n).2.allocs s = some tx ∧
      (∀ k, k ≠ s → lookupA (hashmapAllocate f tx n).2.allocs k = lookupA f.allocs k) ∧
      (∀ id, s ≤ id → id < s + n → id ∉ (hashmapAllocate f tx n).2.cache) ∧
      (hashmapAllocate f tx n).2.pending = f.pending) := by
  constructor
  · intro hall
    have hemp : (f.spans.filter (fun sp => decide (n ≤ sp.2))).map (fun sp => sp.2) = [] := by
      rw [List.map_eq_nil_iff, List.filter_eq_nil_iff]
      intro sp hsp
      simpa using Nat.not_le.mpr (hall sp hsp)
    rw [hashmapAllocate, hemp]
    rw [(minNat?_eq_none []).mpr rfl]
  · intro s m hmem hnm hminsize hminstart
    have hm : minNat? ((f.spans.filter (fun sp => decide (n ≤ sp.2))).map (fun sp => sp.2)) =
        some m := by
      apply minNat?_eq_some
      · exact List.mem_map_of_mem _ (List.mem_filter.mpr ⟨hmem, by simpa using hnm⟩)
      · intro b hb
        obtain ⟨sp, hsp, rfl⟩ := List.mem_map.mp hb
        obtain ⟨hsp1, hsp2⟩ := List.mem_filter.mp hsp
        exact hminsize sp hsp1 (by simpa using hsp2)
    have hs : minNat? ((f.spans.filter (fun sp => sp.2 == m)).map (fun sp => sp.1)) =
        some s := by
      apply minNat?_eq_some
      · exact List.mem_map_of_mem _ (List.mem_filter.mpr ⟨hmem, by simp⟩)
      · intro b hb
        obtain ⟨sp, hsp, rfl⟩ := List.mem_map.mp hb
        obtain ⟨hsp1, hsp2⟩ := List.mem_filter.mp hsp
        exact hminstart sp hsp1 (by simpa using hsp2)
    have hred : hashmapAllocate f tx n =
        (s, { ids := f.ids, allocs := insertA f.allocs s tx, pending := f.pending,
              cache := f.cache.filter (fun id => !(decide (s ≤ id) && decide (id < s + n))),
              spans :=
                if n < m then
                  (s + n, m - n) :: f.spans.eraseP (fun sp => sp.1 == s && sp.2 == m)
                else f.spans.eraseP (fun sp => sp.1 == s && sp.2 == m) }) := by
      simp only [hashmapAllocate, hm, hs]
    rw [hred]
    refine ⟨rfl, ?_, lookupA_insertA_self f.allocs s tx, ?_, ?_, rfl⟩
    · show (if n < m then _ :: _ else _) = _
      by_cases hlt : n < m
      · simp [hlt]
      · simp [hlt]
    · intro k hk
      exact lookupA_insertA_ne f.allocs s k tx hk
    · intro id h1 h2 hmem2
      have hpred := (List.mem_filter.mp hmem2).2
      simp at hpred
      omega

/-- Spans for the allocator-determinism scenario. -/
def exAllocF : Freelist :=
  { ids := [], allocs := [], pending := [],
    cache := [100, 101, 200, 201, 300, 301, 302, 303],
    spans := [(100, 2), (200, 2), (300, 4)] }

/-- Witness for C9: allocator determinism on spans
`{(100,2), (200,2), (300,4)}` with `allocate(tx=1, 2)`. -/
theorem claim_C9_witness :
    (hashmapAllocate exAllocF 1 2).1 = 100 ∧
    (hashmapAllocate exAllocF 1 2).2.spans =
      (if 2 < 2 then [(102, 0)] else []) ++
        exAllocF.spans.eraseP (fun sp => sp.1 == 100 && sp.2 == 2) ∧
    lookupA (hashmapAllocate exAllocF 1 2).2.allocs 100 = some 1 ∧
    (∀ k, k ≠ 100 →
      lookupA (hashmapAllocate exAllocF 1 2).2.allocs k = lookupA exAllocF.allocs k) ∧
    (∀ id, 100 ≤ id → id < 100 + 2 → id ∉ (hashmapAllocate exAllocF 1 2).2.cache) ∧
    (hashmapAllocate exAllocF 1 2).2.pending = exAllocF.pending :=
  (claim_C9_allocate exAllocF 1 2).2 100 2 (by decide) (by decide) (by decide) (by decide)

/-! ## Parallel-array lemmas for the `release` loop -/

theorem zip_set {α β : Type} : ∀ (a : List α) (b : List β) (i : Nat) (x : α) (y : β),
    a.length = b.length → (a.set i x).zip (b.set i y) = (a.zip b).set i (x, y)
  | [], [], _, _, _, _ => rfl
  | [], _ :: _, _, _, _, h => by simp at h
  | _ :: _, [], _, _, _, h => by simp at h
  | ha :: ta, hb :: tb, 0, x, y, _ => by
    simp only [List.set_cons_zero, List.zip_cons_cons]
  | ha :: ta, hb :: tb, i + 1, x, y, h => by
    simp only [List.set_cons_succ, List.zip_cons_cons]
    rw [zip_set ta tb i x y (by simpa using h)]

theorem zip_dropLast {α β : Type} : ∀ (a : List α) (b : List β), a.length = b.length →
    a.dropLast.zip b.dropLast = (a.zip b).dropLast
  | [], [], _ => rfl
  | [], _ :: _, h => by simp at h
  | _ :: _, [], h => by simp at h
  | [_], [_], _ => rfl
  | [_], _ :: _ :: _, h => by simp at h
  | _ :: _ :: _, [_], h => by simp at h
  | x1 :: x2 :: xs, y1 :: y2 :: ys, h => by
    have h' : (x2 :: xs).length = (y2 :: ys).length := by simpa using h
    simp only [List.dropLast_cons₂, List.zip_cons_cons]
    rw [zip_dropLast (x2 :: xs) (y2 :: ys) h']
    simp only [List.zip_cons_cons]

theorem zip_getLastD {α β : Type} : ∀ (a : List α) (b : List β) (da : α) (db : β),
    a.length = b.length → (a.zip b).getLastD (da, db) = (a.getLastD da, b.getLastD db)
  | [], [], _, _, _ => rfl
  | [], _ :: _, _, _, h => by simp at h
  | _ :: _, [], _, _, h => by simp at h
  | ha :: ta, hb :: tb, da, db, h => by
    rw [List.zip_cons_cons, List.getLastD_cons, List.getLastD_cons, List.getLastD_cons]
    exact zip_getLastD ta tb ha hb (by simpa using h)

theorem getLastD_eq_getLast_of_ne_nil {α : Type} (L : List α) (x : α) (h : L ≠ []) :
    L.getLastD x = L.getLast h := by
  cases L with
  | nil => exact absurd rfl h
  | cons a as => rw [List.getLast_eq_getLastD, List.getLastD_cons]

/-- Dropping the last element of `lp :: D` is a permutation of `D`
when the last element of `lp :: D` is `lp` itself. -/
theorem dropLast_cons_perm_of_getLastD {α : Type} (lp : α) (D : List α)
    (h : D.getLastD lp = lp) : List.Perm ((lp :: D).dropLast) D := by
  cases D with
  | nil => simp
  | cons z zs =>
    have hne : (z :: zs) ≠ [] := List.cons_ne_nil z zs
    have hlast : (lp :: z :: zs).getLast (List.cons_ne_nil _ _) = lp := by
      rw [List.getLast_cons hne]
      rw [← getLastD_eq_getLast_of_ne_nil (z :: zs) lp hne]
      exact h
    have hdecomp := List.dropLast_concat_getLast (l := lp :: z :: zs) (List.cons_ne_nil _ _)
    rw [hlast] at hdecomp
    have hperm : List.Perm ((lp :: z :: zs).dropLast ++ [lp])
        (lp :: (lp :: z :: zs).dropLast) :=
      List.perm_append_singleton _ _
    have h2 : List.Perm (lp :: z :: zs) (lp :: (lp :: z :: zs).dropLast) := by
      conv_lhs => rw [← hdecomp]
      exact hperm
    exact (h2.cons_inv).symm

/-- The swap-remove step on a list: overwriting slot `i` with the last
element and dropping the last slot keeps the prefix before `i` intact
and permutes the rest into the suffix after `i`. -/
theorem set_getLastD_surgery {α : Type} (l : List α) (d : α) (i : Nat) (hi : i < l.length) :
    ((l.set i (l.getLastD d)).dropLast).take i = l.take i ∧
    List.Perm (((l.set i (l.getLastD d)).dropLast).drop i) (l.drop (i + 1)) := by
  have hset : l.set i (l.getLastD d) = l.take i ++ l.getLastD d :: l.drop (i + 1) := by
    rw [List.set_eq_take_append_cons_drop, if_pos hi]
  have hdl : (l.set i (l.getLastD d)).dropLast =
      l.take i ++ (l.getLastD d :: l.drop (i + 1)).dropLast := by
    rw [hset, List.dropLast_append_cons]
  have hlt : (l.take i).length = i := by
    rw [List.length_take]
    omega
  have hlnil : l ≠ [] := by
    intro hcon
    rw [hcon] at hi
    simp at hi
  constructor
  · rw [hdl, List.take_left' hlt]
  · rw [hdl, List.drop_left' hlt]
    apply dropLast_cons_perm_of_getLastD
    cases hD : l.drop (i + 1) with
    | nil => rfl
    | cons z zs =>
      have hne : l.drop (i + 1) ≠ [] := by
        rw [hD]
        exact List.cons_ne_nil z zs
      rw [← hD]
      rw [getLastD_eq_getLast_of_ne_nil _ _ hne, List.getLast_drop hne]
      exact (getLastD_eq_getLast_of_ne_nil l d hlnil).symm

/-- Characterization of the `release` swap-remove loop: the surviving
bucket entries are exactly (a permutation of) the prefix before `i`
plus the unsafe entries at or after `i`, and the collected list `m`
gains exactly the ids of the safe entries at or after `i`. -/
theorem releaseLoop_spec (rtxids : List Nat) (ftxid : Nat)
    (ids alloctx : List Nat) (i : Nat) (m : List Nat)
    (hlen : ids.length = alloctx.length) :
    (releaseLoop rtxids ftxid ids alloctx i m).2.1.length =
        (releaseLoop rtxids ftxid ids alloctx i m).2.2.length ∧
    List.Perm
      ((releaseLoop rtxids ftxid ids alloctx i m).2.1.zip
        (releaseLoop rtxids ftxid ids alloctx i m).2.2)
      ((ids.zip alloctx).take i ++
        ((ids.zip alloctx).drop i).filter
          (fun pr => !safeToRelease rtxids pr.2 ftxid)) ∧
    List.Perm (releaseLoop rtxids ftxid ids alloctx i m).1
      (m ++ (((ids.zip alloctx).drop i).filter
          (fun pr => safeToRelease rtxids pr.2 ftxid)).map Prod.fst) := by
  by_cases hi : i < ids.length
  · have hizip : i < (ids.zip alloctx).length := by
      rw [List.length_zip]
      omega
    have hdrop : (ids.zip alloctx).drop i =
        (ids.zip alloctx)[i] :: (ids.zip alloctx).drop (i + 1) :=
      List.drop_eq_getElem_cons hizip
    have helem : (ids.zip alloctx)[i] = (ids.getD i 0, alloctx.getD i 0) := by
      have hia : i < alloctx.length := by omega
      have h1 : ids.getD i 0 = ids[i] := List.getD_eq_getElem ids 0 hi
      have h2 : alloctx.getD i 0 = alloctx[i] :=
        List.getD_eq_getElem alloctx 0 hia
      rw [List.getElem_zip, h1, h2]
    by_cases hsafe : safeToRelease rtxids (alloctx.getD i 0) ftxid = true
    · rw [releaseLoop, dif_pos hi, if_pos hsafe]
      have hlen2 : ((ids.set i (ids.getLastD 0)).dropLast).length =
          ((alloctx.set i (alloctx.getLastD 0)).dropLast).length := by
        simp [hlen]
      obtain ⟨ih1, ih2, ih3⟩ := releaseLoop_spec rtxids ftxid
        ((ids.set i (ids.getLastD 0)).dropLast)
        ((alloctx.set i (alloctx.getLastD 0)).dropLast) i (m ++ [ids.getD i 0]) hlen2
      have hzip2 : ((ids.set i (ids.getLastD 0)).dropLast).zip
          ((alloctx.set i (alloctx.getLastD 0)).dropLast) =
          ((ids.zip alloctx).set i ((ids.zip alloctx).getLastD (0, 0))).dropLast := by
        rw [zip_dropLast _ _ (by simp [hlen]), zip_set _ _ _ _ _ hlen,
          zip_getLastD _ _ _ _ hlen]
      obtain ⟨htake, hdropPerm⟩ := set_getLastD_surgery (ids.zip alloctx) (0, 0) i hizip
      rw [hzip2] at ih2 ih3
      rw [htake] at ih2
      have hfu : ((ids.zip alloctx).drop i).filter
          (fun pr => !safeToRelease rtxids pr.2 ftxid) =
          ((ids.zip alloctx).drop (i + 1)).filter
            (fun pr => !safeToRelease rtxids pr.2 ftxid) := by
        rw [hdrop, List.filter_cons, helem]
        simp [hsafe, -List.getD_eq_getElem?_getD]
      have hfs : ((ids.zip alloctx).drop i).filter
          (fun pr => safeToRelease rtxids pr.2 ftxid) =
          (ids.getD i 0, alloctx.getD i 0) ::
            ((ids.zip alloctx).drop (i + 1)).filter
              (fun pr => safeToRelease rtxids pr.2 ftxid) := by
        rw [hdrop, List.filter_cons, helem]
        simp [hsafe, -List.getD_eq_getElem?_getD]
      refine ⟨ih1, ?_, ?_⟩
      · rw [hfu]
        exact ih2.trans (List.Perm.append (List.Perm.refl _)
          (hdropPerm.filter _))
      · rw [hfs]
        refine ih3.trans ?_
        rw [List.map_cons]
        have hmap := (hdropPerm.filter
          (fun pr => safeToRelease rtxids pr.2 ftxid)).map Prod.fst
        have hstep := List.Perm.append (List.Perm.refl (m ++ [ids.getD i 0])) hmap
        refine hstep.trans ?_
        rw [List.append_assoc]
        exact List.Perm.refl _
    · rw [releaseLoop, dif_pos hi, if_neg hsafe]
      obtain ⟨ih1, ih2, ih3⟩ := releaseLoop_spec rtxids ftxid ids alloctx (i + 1) m hlen
      have htakes : (ids.zip alloctx).take (i + 1) =
          (ids.zip alloctx).take i ++ [(ids.getD i 0, alloctx.getD i 0)] := by
        rw [List.take_succ, List.getElem?_eq_getElem hizip, helem]
        rfl
      have hfu : ((ids.zip alloctx).drop i).filter
          (fun pr => !safeToRelease rtxids pr.2 ftxid) =
          (ids.getD i 0, alloctx.getD i 0) ::
            ((ids.zip alloctx).drop (i + 1)).filter
              (fun pr => !safeToRelease rtxids pr.2 ftxid) := by
        rw [hdrop, List.filter_cons, helem]
        simp [hsafe, -List.getD_eq_getElem?_getD]
      have hfs : ((ids.zip alloctx).drop i).filter
          (fun pr => safeToRelease rtxids pr.2 ftxid) =
          ((ids.zip alloctx).drop (i + 1)).filter
            (fun pr => safeToRelease rtxids pr.2 ftxid) := by
        rw [hdrop, List.filter_cons, helem]
        simp [hsafe, -List.getD_eq_getElem?_getD]
      refine ⟨ih1, ?_, ?_⟩
      · rw [hfu]
        refine ih2.trans ?_
        rw [htakes, List.append_assoc]
        exact List.Perm.refl _
      · rw [hfs]
        exact ih3
  · rw [releaseLoop, dif_neg hi]
    have hz : (ids.zip alloctx).length ≤ i := by
      rw [List.length_zip]
      omega
    refine ⟨hlen, ?_, ?_⟩
    · rw [List.take_of_length_le hz, List.drop_eq_nil_of_le hz]
      simp only [List.filter_nil, List.append_nil]
      exact List.Perm.refl _
    · rw [List.drop_eq_nil_of_le hz]
      simp only [List.filter_nil, List.map_nil, List.append_nil]
      exact List.Perm.refl _
termination_by ids.length - i
decreasing_by
  · simp only [List.length_dropLast, List.length_set]
    omega
  · omega

/-! ## Coverage of the span merge -/

theorem mem_spanIds (x : Nat) (s n : Nat) :
    x ∈ spanIds (s, n) ↔ ∃ j, j < n ∧ x = s + j := by
  simp [spanIds, eq_comm]

theorem spanIds_cons (s n : Nat) : spanIds (s, n + 1) = s :: spanIds (s + 1, n) := by
  rw [spanIds, List.range_succ_eq_map, List.map_cons, List.map_map]
  have hfun : ((fun i => s + i) ∘ fun i => i + 1) = (fun i => (s + 1) + i) := by
    funext i
    simp only [Function.comp]
    omega
  rw [hfun]
  simp [spanIds]

theorem spanIds_add (s n k : Nat) :
    spanIds (s, n + k) = spanIds (s, n) ++ spanIds (s + n, k) := by
  induction k with
  | zero => simp [spanIds]
  | succ k ih =>
    have h1 : n + (k + 1) = (n + k) + 1 := by omega
    rw [h1, spanIds_succ, ih, spanIds_succ, List.append_assoc]
    have h2 : s + (n + k) = s + n + k := by omega
    rw [h2]

/-- A `find?` hit splits the list around the first match, and `eraseP`
removes exactly that occurrence. -/
theorem eraseP_decomp_of_find? {α : Type} (p : α → Bool) :
    ∀ (l : List α) (sp : α), l.find? p = some sp →
      ∃ L1 L2, l = L1 ++ sp :: L2 ∧ l.eraseP p = L1 ++ L2
  | [], sp => by simp
  | x :: xs, sp => by
    intro h
    rw [List.find?_cons] at h
    cases hp : p x with
    | true =>
      rw [hp] at h
      cases h
      refine ⟨[], xs, rfl, ?_⟩
      simp [List.eraseP_cons, hp]
    | false =>
      rw [hp] at h
      obtain ⟨L1, L2, hdec, herase⟩ := eraseP_decomp_of_find? p xs sp h
      refine ⟨x :: L1, L2, by rw [hdec]; rfl, ?_⟩
      simp [List.eraseP_cons, hp, herase]

/-- Erasing the first `p`-match does not move the first `q`-match when
no element satisfies both predicates. -/
theorem find?_eraseP_of_false {α : Type} (p q : α → Bool)
    (hpq : ∀ x, p x = true → q x = false) :
    ∀ l : List α, (l.eraseP p).find? q = l.find? q
  | [] => by simp
  | x :: xs => by
    rw [List.eraseP_cons]
    cases hp : p x with
    | true =>
      simp only [cond_true]
      rw [List.find?_cons, hpq x hp]
    | false =>
      simp only [cond_false]
      rw [List.find?_cons, List.find?_cons]
      cases hq : q x with
      | true => rfl
      | false => exact find?_eraseP_of_false p q hpq xs

theorem covOf_cons (sp : Nat × Nat) (spans : List (Nat × Nat)) :
    covOf (sp :: spans) = spanIds sp ++ covOf spans := by
  simp [covOf]

/-- Membership in the coverage after one merge step: `mergeId` adds
exactly the id being merged (sizes ≥ 1, merged id ≥ 1). -/
theorem mergeId_cov (spans : List (Nat × Nat)) (id : Nat)
    (hid : 1 ≤ id) (hsz : ∀ sp ∈ spans, 1 ≤ sp.2) (x : Nat) :
    x ∈ covOf (mergeId spans id) ↔ (x ∈ covOf spans ∨ x = id) := by
  have hpq : ∀ sp : Nat × Nat, (sp.1 + sp.2 - 1 == id - 1) = true →
      (sp.1 == id + 1) = false := by
    intro sp hbeq
    rw [beq_iff_eq] at hbeq
    rw [Bool.eq_false_iff]
    intro hcon
    rw [beq_iff_eq] at hcon
    omega
  cases hf1 : spans.find? (fun sp => sp.1 + sp.2 - 1 == id - 1) with
  | none =>
    cases hf2 : spans.find? (fun sp => sp.1 == id + 1) with
    | none =>
      simp only [mergeId, hf1, hf2]
      rw [covOf_cons, List.mem_append, mem_spanIds]
      constructor
      · rintro (⟨j, hj, rfl⟩ | h)
        · right
          omega
        · exact Or.inl h
      · rintro (h | rfl)
        · exact Or.inr h
        · exact Or.inl ⟨0, by omega, by omega⟩
    | some sp2 =>
      obtain ⟨rs, rn⟩ := sp2
      have hrs : rs = id + 1 := by
        have := List.find?_some hf2
        rwa [beq_iff_eq] at this
      subst hrs
      obtain ⟨L1, L2, hdec, herase⟩ := eraseP_decomp_of_find? _ spans _ hf2
      simp only [mergeId, hf1, hf2]
      rw [covOf_cons, herase, covOf_append, spanIds_cons]
      conv_rhs => rw [hdec]
      rw [covOf_append, covOf_cons]
      simp only [List.mem_cons, List.mem_append]
      tauto
  | some sp1 =>
    obtain ⟨ls, ln⟩ := sp1
    have heq : ls + ln - 1 = id - 1 := by
      have := List.find?_some hf1
      rwa [beq_iff_eq] at this
    have hln : 1 ≤ ln := hsz _ (List.mem_of_find?_eq_some hf1)
    have hlsln : ls + ln = id := by omega
    obtain ⟨L1, L2, hdec, herase⟩ := eraseP_decomp_of_find? _ spans _ hf1
    cases hf2 : spans.find? (fun sp => sp.1 == id + 1) with
    | none =>
      simp only [mergeId, hf1, hf2]
      rw [covOf_cons, herase, covOf_append, spanIds_succ, hlsln]
      conv_rhs => rw [hdec]
      rw [covOf_append, covOf_cons]
      simp only [List.mem_append, List.mem_singleton]
      tauto
    | some sp2 =>
      obtain ⟨rs, rn⟩ := sp2
      have hrs : rs = id + 1 := by
        have := List.find?_some hf2
        rwa [beq_iff_eq] at this
      subst hrs
      have hf2' : (spans.eraseP (fun sp => sp.1 + sp.2 - 1 == id - 1)).find?
          (fun sp => sp.1 == id + 1) = some (id + 1, rn) := by
        rw [find?_eraseP_of_false _ _ hpq spans]
        exact hf2
      obtain ⟨M1, M2, hdec2, herase2⟩ := eraseP_decomp_of_find? _ _ _ hf2'
      have hLM : L1 ++ L2 = M1 ++ (id + 1, rn) :: M2 := by
        rw [← herase, hdec2]
      have hspan : spanIds (ls, ln + 1 + rn) =
          spanIds (ls, ln) ++ id :: spanIds (id + 1, rn) := by
        have h1 : ln + 1 + rn = ln + (1 + rn) := by omega
        rw [h1, spanIds_add, hlsln]
        have h2 : 1 + rn = rn + 1 := by omega
        rw [h2, spanIds_cons]
      have hbridge : (x ∈ covOf L1 ∨ x ∈ covOf L2) ↔
          (x ∈ covOf M1 ∨ x ∈ spanIds (id + 1, rn) ∨ x ∈ covOf M2) := by
        rw [← List.mem_append, ← covOf_append, hLM, covOf_append, covOf_cons]
        simp [List.mem_append]
      simp only [mergeId, hf1, hf2]
      rw [covOf_cons, herase2, covOf_append, hspan]
      conv_rhs => rw [hdec]
      rw [covOf_append, covOf_cons]
      simp only [List.mem_append, List.mem_cons] at hbridge ⊢
      tauto

/-- `mergeId` keeps all span sizes positive. -/
theorem mergeId_sizes (spans : List (Nat × Nat)) (id : Nat)
    (hsz : ∀ sp ∈ spans, 1 ≤ sp.2) :
    ∀ sp ∈ mergeId spans id, 1 ≤ sp.2 := by
  have htail1 : ∀ p, ∀ sp ∈ spans.eraseP p, 1 ≤ sp.2 := by
    intro p sp hsp
    exact hsz sp ((List.eraseP_sublist spans).mem hsp)
  have htail2 : ∀ p q, ∀ sp ∈ (spans.eraseP p).eraseP q, 1 ≤ sp.2 := by
    intro p q sp hsp
    exact htail1 p sp ((List.eraseP_sublist _).mem hsp)
  rw [mergeId]
  cases hf1 : spans.find? (fun sp => sp.1 + sp.2 - 1 == id - 1) with
  | none =>
    cases hf2 : spans.find? (fun sp => sp.1 == id + 1) with
    | none =>
      intro sp hsp
      rcases List.mem_cons.mp hsp with rfl | hsp
      · omega
      · exact hsz sp hsp
    | some sp2 =>
      obtain ⟨rs, rn⟩ := sp2
      intro sp hsp
      rcases List.mem_cons.mp hsp with rfl | hsp
      · show 1 ≤ rn + 1
        omega
      · exact htail1 _ sp hsp
  | some sp1 =>
    obtain ⟨ls, ln⟩ := sp1
    cases hf2 : spans.find? (fun sp => sp.1 == id + 1) with
    | none =>
      intro sp hsp
      rcases List.mem_cons.mp hsp with rfl | hsp
      · show 1 ≤ ln + 1
        omega
      · exact htail1 _ sp hsp
    | some sp2 =>
      obtain ⟨rs, rn⟩ := sp2
      intro sp hsp
      rcases List.mem_cons.mp hsp with rfl | hsp
      · show 1 ≤ ln + 1 + rn
        omega
      · exact htail2 _ _ sp hsp

/-- Coverage of a whole batch merge. -/
theorem foldl_mergeId_cov : ∀ (m : List Nat) (spans : List (Nat × Nat)),
    (∀ j ∈ m, 1 ≤ j) → (∀ sp ∈ spans, 1 ≤ sp.2) → ∀ x,
      (x ∈ covOf (m.foldl mergeId spans) ↔ (x ∈ covOf spans ∨ x ∈ m))
  | [], spans, _, _, x => by simp
  | j :: rest, spans, hm, hsz, x => by
    rw [List.foldl_cons]
    rw [foldl_mergeId_cov rest (mergeId spans j)
      (fun a ha => hm a (List.mem_cons_of_mem _ ha))
      (mergeId_sizes spans j hsz), mergeId_cov spans j (hm j (List.mem_cons_self _ _)) hsz]
    simp only [List.mem_cons]
    tauto

/-! ## Characterization of `release` -/

/-- The ids a bucket contributes to the merge batch: the ids of its
safe entries. -/
def safeIdsOf (rtxids : List Nat) (kv : Nat × TxPending) : List Nat :=
  ((kv.2.ids.zip kv.2.alloctx).filter
    (fun pr => safeToRelease rtxids pr.2 kv.1)).map Prod.fst

theorem lookupA_eq_none_of_not_mem_keys {β : Type} :
    ∀ (l : List (Nat × β)) (k : Nat), k ∉ l.map Prod.fst → lookupA l k = none
  | [], k, _ => by simp [lookupA]
  | hd :: tl, k, h => by
    simp only [List.map_cons, List.mem_cons, not_or] at h
    rw [lookupA_cons, if_neg (fun hcon => h.1 hcon.symm)]
    exact lookupA_eq_none_of_not_mem_keys tl k h.2

theorem lookupA_append_single_ne {β : Type} :
    ∀ (l : List (Nat × β)) (k t : Nat) (v : β), t ≠ k →
      lookupA (l ++ [(k, v)]) t = lookupA l t
  | [], k, t, v, hne => by
    rw [List.nil_append, lookupA_cons, if_neg (fun hcon => hne hcon.symm), lookupA_nil]
  | hd :: tl, k, t, v, hne => by
    rw [List.cons_append, lookupA_cons, lookupA_cons]
    by_cases h : hd.1 = t
    · rw [if_pos h, if_pos h]
    · rw [if_neg h, if_neg h]
      exact lookupA_append_single_ne tl k t v hne

theorem lookupA_append_single_self {β : Type} :
    ∀ (l : List (Nat × β)) (k : Nat) (v : β), lookupA l k = none →
      lookupA (l ++ [(k, v)]) k = some v
  | [], k, v, _ => by
    rw [List.nil_append, lookupA_cons, if_pos rfl]
  | hd :: tl, k, v, h => by
    rw [lookupA_cons] at h
    rw [List.cons_append, lookupA_cons]
    by_cases hk : hd.1 = k
    · rw [if_pos hk] at h
      cases h
    · rw [if_neg hk] at h
      rw [if_neg hk]
      exact lookupA_append_single_self tl k v h

theorem length_eq_zero_of_zip_nil :
    ∀ (a b : List Nat), a.length = b.length → a.zip b = [] → a.length = 0
  | [], _, _, _ => rfl
  | _ :: _, [], h, _ => by simp at h
  | _ :: _, _ :: _, _, hz => by simp [List.zip_cons_cons] at hz

/-- Characterization of the bucket fold of `release`: the merge batch
collects every bucket's safe ids, untouched keys keep their bindings,
fully-safe buckets are deleted, and a bucket with an unsafe entry
survives with exactly its unsafe entries. -/
theorem releaseFold_spec (rtxids : List Nat) :
    ∀ (buckets : List (Nat × TxPending)) (m0 : List Nat) (p0 : List (Nat × TxPending)),
      (∀ kv ∈ buckets, kv.2.ids.length = kv.2.alloctx.length) →
      List.Perm (buckets.foldl (releaseStep rtxids) (m0, p0)).1
        (m0 ++ (buckets.map (safeIdsOf rtxids)).flatten) ∧
      (∀ t, t ∉ buckets.map Prod.fst →
        lookupA (buckets.foldl (releaseStep rtxids) (m0, p0)).2 t = lookupA p0 t) ∧
      (∀ t tp, (t, tp) ∈ buckets → (buckets.map Prod.fst).Nodup →
        t ∉ p0.map Prod.fst →
        (((tp.ids.zip tp.alloctx).filter
            (fun pr => !safeToRelease rtxids pr.2 t) = [] →
          lookupA (buckets.foldl (releaseStep rtxids) (m0, p0)).2 t = none) ∧
        (∀ pr, pr ∈ tp.ids.zip tp.alloctx → safeToRelease rtxids pr.2 t = false →
          ∃ tp', lookupA (buckets.foldl (releaseStep rtxids) (m0, p0)).2 t = some tp' ∧
            List.Perm (tp'.ids.zip tp'.alloctx)
              ((tp.ids.zip tp.alloctx).filter
                (fun pr => !safeToRelease rtxids pr.2 t)))))
  | [], m0, p0, _ => by
    refine ⟨by simp, fun t _ => rfl, fun t tp hmem _ _ => absurd hmem (by simp)⟩
  | kv :: rest, m0, p0, hlen => by
    obtain ⟨rl1, rl2, rl3⟩ := releaseLoop_spec rtxids kv.1 kv.2.ids kv.2.alloctx 0 m0
      (hlen kv (List.mem_cons_self _ _))
    rw [List.take_zero, List.drop_zero, List.nil_append] at rl2
    rw [List.drop_zero] at rl3
    rw [List.foldl_cons]
    have hstep : releaseStep rtxids (m0, p0) kv =
        ((releaseLoop rtxids kv.1 kv.2.ids kv.2.alloctx 0 m0).1,
          if (releaseLoop rtxids kv.1 kv.2.ids kv.2.alloctx 0 m0).2.1.length = 0 then p0
          else p0 ++ [(kv.1, ⟨(releaseLoop rtxids kv.1 kv.2.ids kv.2.alloctx 0 m0).2.1,
            (releaseLoop rtxids kv.1 kv.2.ids kv.2.alloctx 0 m0).2.2⟩)]) := rfl
    rw [hstep]
    by_cases hz : (releaseLoop rtxids kv.1 kv.2.ids kv.2.alloctx 0 m0).2.1.length = 0
    · rw [if_pos hz]
      obtain ⟨iha, ihb, ihc⟩ := releaseFold_spec rtxids rest
        (releaseLoop rtxids kv.1 kv.2.ids kv.2.alloctx 0 m0).1 p0
        (fun kv2 h2 => hlen kv2 (List.mem_cons_of_mem _ h2))
      refine ⟨?_, ?_, ?_⟩
      · refine iha.trans ?_
        refine (List.Perm.append rl3 (List.Perm.refl _)).trans ?_
        rw [List.map_cons, List.flatten_cons, List.append_assoc]
        exact List.Perm.refl _
      · intro t ht
        simp only [List.map_cons, List.mem_cons, not_or] at ht
        rw [ihb t ht.2]
      · intro t tp hmem hnd hp0
        rw [List.map_cons, List.nodup_cons] at hnd
        rcases List.mem_cons.mp hmem with heq | hmem
        · have ht : t = kv.1 := congrArg Prod.fst heq
          have htp : tp = kv.2 := congrArg Prod.snd heq
          subst ht
          subst htp
          constructor
          · intro _
            rw [ihb kv.1 hnd.1]
            exact lookupA_eq_none_of_not_mem_keys p0 kv.1 hp0
          · intro pr hpr hnosafe
            exfalso
            have hprf : pr ∈ (kv.2.ids.zip kv.2.alloctx).filter
                (fun pr => !safeToRelease rtxids pr.2 kv.1) := by
              rw [List.mem_filter]
              exact ⟨hpr, by rw [hnosafe]; rfl⟩
            have hmem2 := rl2.symm.subset hprf
            have hzip : (releaseLoop rtxids kv.1 kv.2.ids kv.2.alloctx 0 m0).2.1.zip
                (releaseLoop rtxids kv.1 kv.2.ids kv.2.alloctx 0 m0).2.2 ≠ [] := by
              intro hcon
              rw [hcon] at hmem2
              cases hmem2
            rcases hll : (releaseLoop rtxids kv.1 kv.2.ids kv.2.alloctx 0 m0).2.1 with
              _ | ⟨a, as⟩
            · rw [hll] at rl1
              have h22 : (releaseLoop rtxids kv.1 kv.2.ids kv.2.alloctx 0 m0).2.2 = [] := by
                have h0 :
                    (releaseLoop rtxids kv.1 kv.2.ids kv.2.alloctx 0 m0).2.2.length = 0 := by
                  simpa using rl1.symm
                exact List.length_eq_zero.mp h0
              rw [hll, h22] at hzip
              exact hzip rfl
            · rw [hll] at hz
              simp at hz
        · obtain ⟨iha2, ihb2, ihc2⟩ := releaseFold_spec rtxids rest
            (releaseLoop rtxids kv.1 kv.2.ids kv.2.alloctx 0 m0).1 p0
            (fun kv2 h2 => hlen kv2 (List.mem_cons_of_mem _ h2))
          exact ihc2 t tp hmem hnd.2 hp0
    · rw [if_neg hz]
      obtain ⟨iha, ihb, ihc⟩ := releaseFold_spec rtxids rest
        (releaseLoop rtxids kv.1 kv.2.ids kv.2.alloctx 0 m0).1
        (p0 ++ [(kv.1, ⟨(releaseLoop rtxids kv.1 kv.2.ids kv.2.alloctx 0 m0).2.1,
          (releaseLoop rtxids kv.1 kv.2.ids kv.2.alloctx 0 m0).2.2⟩)])
        (fun kv2 h2 => hlen kv2 (List.mem_cons_of_mem _ h2))
      refine ⟨?_, ?_, ?_⟩
      · refine iha.trans ?_
        refine (List.Perm.append rl3 (List.Perm.refl _)).trans ?_
        rw [List.map_cons, List.flatten_cons, List.append_assoc]
        exact List.Perm.refl _
      · intro t ht
        simp only [List.map_cons, List.mem_cons, not_or] at ht
        rw [ihb t ht.2]
        exact lookupA_append_single_ne p0 kv.1 t _ ht.1
      · intro t tp hmem hnd hp0
        rw [List.map_cons, List.nodup_cons] at hnd
        rcases List.mem_cons.mp hmem with heq | hmem
        · have ht : t = kv.1 := congrArg Prod.fst heq
          have htp : tp = kv.2 := congrArg Prod.snd heq
          subst ht
          subst htp
          constructor
          · intro hempty
            exfalso
            have hzipnil : (releaseLoop rtxids kv.1 kv.2.ids kv.2.alloctx 0 m0).2.1.zip
                (releaseLoop rtxids kv.1 kv.2.ids kv.2.alloctx 0 m0).2.2 = [] := by
              rw [hempty] at rl2
              exact rl2.eq_nil
            exact hz (length_eq_zero_of_zip_nil _ _ rl1 hzipnil)
          · intro pr hpr hnosafe
            refine ⟨⟨(releaseLoop rtxids kv.1 kv.2.ids kv.2.alloctx 0 m0).2.1,
              (releaseLoop rtxids kv.1 kv.2.ids kv.2.alloctx 0 m0).2.2⟩, ?_, rl2⟩
            rw [ihb kv.1 hnd.1]
            exact lookupA_append_single_self p0 kv.1 _
              (lookupA_eq_none_of_not_mem_keys p0 kv.1 hp0)
        · have htne : t ≠ kv.1 := by
            intro hcon
            apply hnd.1
            rw [← hcon]
            exact List.mem_map_of_mem Prod.fst hmem
          refine (ihc t tp hmem hnd.2 ?_).imp (fun h => h) (fun h => h)
          rw [List.map_append]
          simp only [List.mem_append, List.map_cons, List.map_nil, List.mem_singleton,
            not_or]
          exact ⟨hp0, by simpa using htne⟩

/-- The safety predicate unfolded: no open reader lies in `[atxid, ftxid)`. -/
theorem safeToRelease_iff (rtxids : List Nat) (a ftxid : Nat) :
    safeToRelease rtxids a ftxid = true ↔ ∀ r ∈ rtxids, ¬(a ≤ r ∧ r < ftxid) := by
  simp only [safeToRelease, List.all_eq_true, Bool.not_eq_true', Bool.and_eq_false_iff,
    decide_eq_false_iff_not, not_le, not_lt, not_and]
  constructor
  · intro h r hr hle
    rcases h r hr with h1 | h2
    · omega
    · omega
  · intro h r hr
    by_cases hle : a ≤ r
    · right
      exact h r hr hle
    · left
      omega

theorem zip_fst_unique :
    ∀ (ids al : List Nat) (x a b : Nat), ids.Nodup →
      (x, a) ∈ ids.zip al → (x, b) ∈ ids.zip al → a = b
  | [], _, _, _, _, _, ha, _ => by cases ha
  | _ :: _, [], _, _, _, _, ha, _ => by cases ha
  | i :: is, c :: cs, x, a, b, hnd, ha, hb => by
    rw [List.zip_cons_cons] at ha hb
    rw [List.nodup_cons] at hnd
    rcases List.mem_cons.mp ha with ha | ha
    · rcases List.mem_cons.mp hb with hb | hb
      · have h1 : a = c := congrArg Prod.snd ha
        have h2 : b = c := congrArg Prod.snd hb
        rw [h1, h2]
      · exfalso
        apply hnd.1
        have hx : x = i := congrArg Prod.fst ha
        rw [← hx]
        exact (List.of_mem_zip hb).1
    · rcases List.mem_cons.mp hb with hb | hb
      · exfalso
        apply hnd.1
        have hx : x = i := congrArg Prod.fst hb
        rw [← hx]
        exact (List.of_mem_zip ha).1
      · exact zip_fst_unique is cs x a b hnd.2 ha hb

theorem keys_nodup_unique {β : Type} :
    ∀ (l : List (Nat × β)) (k : Nat) (a b : β), (l.map Prod.fst).Nodup →
      (k, a) ∈ l → (k, b) ∈ l → a = b
  | [], _, _, _, _, ha, _ => by cases ha
  | hd :: tl, k, a, b, hnd, ha, hb => by
    rw [List.map_cons, List.nodup_cons] at hnd
    rcases List.mem_cons.mp ha with ha | ha
    · rcases List.mem_cons.mp hb with hb | hb
      · have h1 : a = hd.2 := congrArg Prod.snd ha
        have h2 : b = hd.2 := congrArg Prod.snd hb
        rw [h1, h2]
      · exfalso
        apply hnd.1
        have hk : k = hd.1 := congrArg Prod.fst ha
        rw [← hk]
        exact List.mem_map_of_mem Prod.fst hb
    · rcases List.mem_cons.mp hb with hb | hb
      · exfalso
        apply hnd.1
        have hk : k = hd.1 := congrArg Prod.fst hb
        rw [← hk]
        exact List.mem_map_of_mem Prod.fst ha
      · exact keys_nodup_unique tl k a b hnd.2 ha hb

theorem mem_safeIdsOf (rtxids : List Nat) (kv : Nat × TxPending) (x : Nat)
    (hx : x ∈ safeIdsOf rtxids kv) :
    ∃ a, (x, a) ∈ kv.2.ids.zip kv.2.alloctx ∧ safeToRelease rtxids a kv.1 = true := by
  rw [safeIdsOf, List.mem_map] at hx
  obtain ⟨pr, hpr, hfst⟩ := hx
  rw [List.mem_filter] at hpr
  refine ⟨pr.2, ?_, hpr.2⟩
  have hpair : (x, pr.2) = pr := by
    rw [← hfst]
  rw [hpair]
  exact hpr.1

theorem release_pending (f : Freelist) (rtxids : List Nat) :
    (release f rtxids).pending = (f.pending.foldl (releaseStep rtxids) ([], [])).2 := rfl

theorem release_spans (f : Freelist) (rtxids : List Nat) :
    (release f rtxids).spans =
      (f.pending.foldl (releaseStep rtxids) ([], [])).1.foldl mergeId f.spans := rfl

theorem mem_pendingIds_of_mem (f : Freelist) (kv : Nat × TxPending) (x : Nat)
    (hkv : kv ∈ f.pending) (hx : x ∈ kv.2.ids) : x ∈ pendingIds f := by
  rw [pendingIds, List.mem_flatten]
  exact ⟨kv.2.ids, List.mem_map_of_mem _ hkv, hx⟩

/-- Concrete release scenario: pending bucket of writer tx 10 holds the
entries (100, 3) and (101, 8). -/
def exC2TP : TxPending := ⟨[100, 101], [3, 8]⟩

/-- Concrete release scenario: one free span covering pages 2–3 and the
single pending bucket `exC2TP` under writer tx 10. -/
def exC2F : Freelist :=
  { ids := [], allocs := [], pending := [(10, exC2TP)],
    cache := [2, 3, 100, 101], spans := [(2, 2)] }

/-- C2: in `release(open_readers)`, a pending entry `{id, a}` stored under
writer txid `ftxid` is moved into the free spans iff no reader txid `r` in
`open_readers` satisfies `a ≤ r < ftxid`; entries that are not safe remain
in `pending[ftxid]` (the surviving bucket holds exactly the unsafe
entries), and a bucket whose entries are all safe is deleted from the
pending table. -/
theorem claim_C2_release (f : Freelist) (rtxids : List Nat)
    (ftxid : Nat) (txp : TxPending) (id a : Nat)
    (hmem : (ftxid, txp) ∈ f.pending)
    (hentry : (id, a) ∈ txp.ids.zip txp.alloctx)
    (hnd : (f.pending.map Prod.fst).Nodup)
    (hlen : ∀ kv ∈ f.pending, kv.2.ids.length = kv.2.alloctx.length)
    (hone : ∀ j ∈ pendingIds f, 1 ≤ j)
    (hsz : ∀ sp ∈ f.spans, 1 ≤ sp.2)
    (hpnd : (pendingIds f).Nodup)
    (hdisj : ∀ j ∈ pendingIds f, j ∉ covOf f.spans) :
    (id ∈ covOf (release f rtxids).spans ↔ ∀ r ∈ rtxids, ¬(a ≤ r ∧ r < ftxid)) ∧
    (safeToRelease rtxids a ftxid = false →
      ∃ tp', lookupA (release f rtxids).pending ftxid = some tp' ∧
        List.Perm (tp'.ids.zip tp'.alloctx)
          ((txp.ids.zip txp.alloctx).filter
            (fun pr => !safeToRelease rtxids pr.2 ftxid))) ∧
    ((∀ pr ∈ txp.ids.zip txp.alloctx, safeToRelease rtxids pr.2 ftxid = true) →
      lookupA (release f rtxids).pending ftxid = none) := by
  have hid : id ∈ txp.ids := (List.of_mem_zip hentry).1
  have hidp : id ∈ pendingIds f := mem_pendingIds_of_mem f (ftxid, txp) id hmem hid
  obtain ⟨fa, fb, fc⟩ := releaseFold_spec rtxids f.pending [] [] hlen
  rw [List.nil_append] at fa
  have hbatch_sub : ∀ j ∈ (f.pending.foldl (releaseStep rtxids) ([], [])).1,
      ∃ kv ∈ f.pending, j ∈ safeIdsOf rtxids kv := by
    intro j hj
    have hj2 := fa.subset hj
    rw [List.mem_flatten] at hj2
    obtain ⟨l, hl, hjl⟩ := hj2
    rw [List.mem_map] at hl
    obtain ⟨kv, hkv, hlkv⟩ := hl
    exact ⟨kv, hkv, by rw [hlkv]; exact hjl⟩
  have hm1 : ∀ j ∈ (f.pending.foldl (releaseStep rtxids) ([], [])).1, 1 ≤ j := by
    intro j hj
    obtain ⟨kv, hkv, hjkv⟩ := hbatch_sub j hj
    obtain ⟨b, hb, _⟩ := mem_safeIdsOf rtxids kv j hjkv
    exact hone j (mem_pendingIds_of_mem f kv j hkv (List.of_mem_zip hb).1)
  have hcov : ∀ x, x ∈ covOf (release f rtxids).spans ↔
      (x ∈ covOf f.spans ∨ x ∈ (f.pending.foldl (releaseStep rtxids) ([], [])).1) := by
    intro x
    rw [release_spans]
    exact foldl_mergeId_cov _ f.spans hm1 hsz x
  obtain ⟨hflat, hpairk⟩ := List.nodup_flatten.mp hpnd
  have hndids : txp.ids.Nodup :=
    hflat txp.ids (List.mem_map_of_mem (fun kv => kv.2.ids) hmem)
  refine ⟨?_, ?_, ?_⟩
  · rw [← safeToRelease_iff]
    constructor
    · intro hin
      by_contra hnosafe
      rw [Bool.not_eq_true] at hnosafe
      rcases (hcov id).mp hin with hold | hbat
      · exact hdisj id hidp hold
      · obtain ⟨kv, hkv, hidkv⟩ := hbatch_sub id hbat
        obtain ⟨b, hb, hsafeb⟩ := mem_safeIdsOf rtxids kv id hidkv
        by_cases hk : kv.1 = ftxid
        · have hkv' : (ftxid, kv.2) ∈ f.pending := by
            rw [← hk]
            exact hkv
          have htp : kv.2 = txp := keys_nodup_unique f.pending ftxid kv.2 txp hnd hkv' hmem
          rw [htp] at hb
          have hba : b = a := zip_fst_unique txp.ids txp.alloctx id b a hndids hb hentry
          rw [hba, hk, hnosafe] at hsafeb
          cases hsafeb
        · have hkvne : kv ≠ (ftxid, txp) := by
            intro hcon
            apply hk
            rw [hcon]
          have hpairp : f.pending.Pairwise
              (fun u v => List.Disjoint u.2.ids v.2.ids) := by
            rw [← List.pairwise_map]
            exact hpairk
          have hdkv : List.Disjoint kv.2.ids txp.ids :=
            hpairp.forall (fun u v h => h.symm) hkv hmem hkvne
          exact hdkv (List.of_mem_zip hb).1 hid
    · intro hsafe
      apply (hcov id).mpr
      right
      apply fa.symm.subset
      rw [List.mem_flatten]
      refine ⟨safeIdsOf rtxids (ftxid, txp),
        List.mem_map_of_mem (safeIdsOf rtxids) hmem, ?_⟩
      rw [safeIdsOf]
      exact List.mem_map_of_mem Prod.fst (List.mem_filter.mpr ⟨hentry, hsafe⟩)
  · intro hnosafe
    rw [release_pending]
    exact (fc ftxid txp hmem hnd (by simp)).2 (id, a) hentry hnosafe
  · intro hall
    rw [release_pending]
    apply (fc ftxid txp hmem hnd (by simp)).1
    rw [List.filter_eq_nil_iff]
    intro pr hpr
    simp [hall pr hpr]

/-- Witness for C2 at the concrete scenario: with reader tx 5 open,
entry (101, 8) of bucket 10 is safe (8 ≤ 5 fails) while the bucket also
holds the unsafe entry (100, 3). -/
theorem claim_C2_witness :
    (101 ∈ covOf (release exC2F [5]).spans ↔ ∀ r ∈ [5], ¬(8 ≤ r ∧ r < 10)) ∧
    (safeToRelease [5] 8 10 = false →
      ∃ tp', lookupA (release exC2F [5]).pending 10 = some tp' ∧
        List.Perm (tp'.ids.zip tp'.alloctx)
          ((exC2TP.ids.zip exC2TP.alloctx).filter
            (fun pr => !safeToRelease [5] pr.2 10))) ∧
    ((∀ pr ∈ exC2TP.ids.zip exC2TP.alloctx, safeToRelease [5] pr.2 10 = true) →
      lookupA (release exC2F [5]).pending 10 = none) :=
  claim_C2_release exC2F [5] 10 exC2TP 101 8 (by decide) (by decide) (by decide)
    (by decide) (by decide) (by decide) (by decide) (by decide)

end BoltFreelist
